import Mathlib

/-!
Verification development for the mcp-router conversion-queue slice.

Part A embeds `bundle-processor.ts` (format detection and MCPB JSON
decoding).  Part B embeds the `ConversionQueueService` of the queue
module as a small-step state machine whose atomic steps follow the
JavaScript event-loop granularity: an `enqueue` call runs synchronously
up to (and including) the synchronous prefix of `processNext`, which
stops at the single `await processBundleFile(...)` suspension point;
the continuation after that `await` (success/failure handling plus the
recursive kick of `processNext`) is a second atomic step.

Bytes are modelled as `List Nat`; raw byte buffers held by the queue
are modelled as references (`Ref`) into an external heap, which mirrors
JavaScript reference semantics of `Uint8Array` and result objects and
lets us reason about the shallow `{ ...job }` spread copies.
-/

/-! ## Part A: bundle-processor.ts -/

/-- Result of `detectBundleType`: the archive family (`dxt`) or the
JSON family (`mcpb-json`). -/
inductive BundleType
  | dxt
  | mcpbJson
deriving DecidableEq, Repr

/-- String lowering `name.toLowerCase()` implemented over the
underlying character list (so that the kernel can evaluate it on
concrete inputs). -/
def jsToLower (s : String) : String := String.mk (s.data.map Char.toLower)

/-- Suffix test `name.endsWith(suffix)` implemented over the
underlying character lists. -/
def jsEndsWith (s suffix : String) : Bool := List.isSuffixOf suffix.data s.data

/-- ASCII whitespace bytes removed by `trimStart` on the decoded peek
text (TAB, LF, VT, FF, CR, SP).  Multi-byte Unicode whitespace is not
modelled; all inputs of interest here are ASCII. -/
def jsWhitespace (b : Nat) : Bool :=
  b == 0x09 || b == 0x0A || b == 0x0B || b == 0x0C || b == 0x0D || b == 0x20

/-- Embedding of `detectBundleType` (bundle-processor.ts, lines 10-30):
extension hints first, then a 64-byte peek checked for the ZIP
signature and then for a leading brace after whitespace, else `dxt`. -/
def detectBundleType (file : List Nat) (fileName : Option String) : BundleType :=
  let name := jsToLower (fileName.getD "")
  if jsEndsWith name ".dxt" then .dxt
  else if jsEndsWith name ".mcpb" then .mcpbJson
  else
    let maxPeek := min 64 file.length
    let peek := file.take maxPeek
    let isZip := peek[0]? == some 0x50 && peek[1]? == some 0x4b
    if isZip then .dxt
    else if (peek.dropWhile jsWhitespace).head? == some 0x7b then .mcpbJson
    else .dxt

/-- The classification function exactly as the claim words it: the
brace sniff looks at the whole payload trimmed of leading whitespace,
not at a bounded peek window. -/
def detectBundleTypeClaimed (file : List Nat) (fileName : Option String) : BundleType :=
  let name := jsToLower (fileName.getD "")
  if jsEndsWith name ".dxt" then .dxt
  else if jsEndsWith name ".mcpb" then .mcpbJson
  else if file[0]? == some 0x50 && file[1]? == some 0x4b then .dxt
  else if (file.dropWhile jsWhitespace).head? == some 0x7b then .mcpbJson
  else .dxt

/-- The claim amended to match the code: identical, except that the
brace sniff only sees the payload restricted to its first 64 bytes. -/
def detectBundleTypeClaimedWindowed (file : List Nat) (fileName : Option String) : BundleType :=
  let name := jsToLower (fileName.getD "")
  if jsEndsWith name ".dxt" then .dxt
  else if jsEndsWith name ".mcpb" then .mcpbJson
  else if file[0]? == some 0x50 && file[1]? == some 0x4b then .dxt
  else if ((file.take (min 64 file.length)).dropWhile jsWhitespace).head? == some 0x7b then
    .mcpbJson
  else .dxt

/-- JSON values as produced by `JSON.parse`.  Numbers are modelled as
integers; none of the decoded fields of interest are fractional. -/
inductive JsonV
  | null
  | bool (b : Bool)
  | num (n : Int)
  | str (s : String)
  | arr (elems : List JsonV)
  | obj (fields : List (String × JsonV))
deriving Repr

/-- JavaScript truthiness of a parsed JSON value (`undefined` is
represented as an absent field, see `truthyO`). -/
def truthy : JsonV → Bool
  | .null => false
  | .bool b => b
  | .num n => n != 0
  | .str s => s != ""
  | .arr _ => true
  | .obj _ => true

/-- Property access `v.k`: a present field of an object, otherwise
`none` (JavaScript `undefined`). -/
def getField : JsonV → String → Option JsonV
  | .obj fs, k => (fs.find? (fun p => p.1 == k)).map (fun p => p.2)
  | _, _ => none

/-- Truthiness of a possibly-absent field. -/
def truthyO : Option JsonV → Bool
  | none => false
  | some v => truthy v

/-- JavaScript `typeof v === "object"` (true for objects, arrays and
`null`). -/
def isObjectType : JsonV → Bool
  | .obj _ => true
  | .arr _ => true
  | .null => true
  | _ => false

/-- Property assignment `v.k = x` on an object: replaces the binding
when present, appends it otherwise.  (The code only assigns to values
that have already passed the object check.) -/
def setField (v : JsonV) (k : String) (x : JsonV) : JsonV :=
  match v with
  | .obj fs =>
      if (fs.find? (fun p => p.1 == k)).isSome then
        .obj (fs.map (fun p => if p.1 == k then (p.1, x) else p))
      else
        .obj (fs ++ [(k, x)])
  | other => other

/-- Nullish coalescing `a ?? d`: the default applies only to absent or
`null` values, never to other falsy values. -/
def nullishD : Option JsonV → JsonV → JsonV
  | none, d => d
  | some .null, d => d
  | some v, _ => v

/-- The `parsed.server ? parsed.server : parsed` unwrapping step of
`processMcpbJson` (bundle-processor.ts, line 41).  In JavaScript the
property access `parsed.server` throws a TypeError when `parsed` is
`null` (modelled with the V8 message, apostrophes escaped); since
`JSON.parse` never yields `undefined`, `null` is the only parse result
on which this access throws — primitives box and yield `undefined`. -/
def decodedRecord (parsed : JsonV) : Except String JsonV :=
  match parsed with
  | .null => .error "Cannot read properties of null (reading \x27server\x27)"
  | v => .ok (if truthyO (getField v "server") then (getField v "server").getD .null else v)

/-- Embedding of `processMcpbJson` (bundle-processor.ts, lines 36-68)
after `JSON.parse`: validation and defaulting of the decoded record.
The thrown `Error` values are modelled as `Except.error` carrying the
message (apostrophes in the source message are written escaped); the
catch block rethrows whatever was thrown, so the TypeError raised by
the `parsed.server` access on a `null` payload propagates with its own
message. -/
def processMcpbJson (parsed : JsonV) : Except String JsonV :=
  match decodedRecord parsed with
  | .error e => .error e
  | .ok config =>
      if !truthy config || !isObjectType config then
        .error "Invalid MCPB content: not an object"
      else if !truthyO (getField config "name") then
        .error "Invalid MCPB: missing \x27name\x27"
      else
        let c1 := if !truthyO (getField config "serverType") then
            setField config "serverType" (.str "local") else config
        let c2 := if !truthyO (getField c1 "env") then setField c1 "env" (.obj []) else c1
        let c3 := setField c2 "disabled" (nullishD (getField c2 "disabled") (.bool false))
        let c4 := setField c3 "autoStart" (nullishD (getField c3 "autoStart") (.bool false))
        let c5 := setField c4 "verificationStatus"
            (nullishD (getField c4 "verificationStatus") (.str "unverified"))
        .ok c5

/-- Whether the decoded record is an object that carries a `name`
field at all (regardless of the field's value); this is the reading of
"lacks a name field" in the claim. -/
def hasNameField : JsonV → Bool
  | .obj fs => (fs.find? (fun p => p.1 == "name")).isSome
  | _ => false

/-! ### Lemmas about `setField` and `getField` -/

lemma find?_map_replace (fs : List (String × JsonV)) (k : String) (x : JsonV) :
    (fs.map (fun p => if p.1 == k then (p.1, x) else p)).find? (fun p => p.1 == k) =
      ((fs.find? (fun p => p.1 == k)).map (fun p => (p.1, x))) := by
  induction fs with
  | nil => rfl
  | cons p t ih =>
      simp only [List.map_cons, List.find?_cons]
      by_cases h : (p.1 == k) = true
      · simp only [h, if_true]
        rfl
      · have hb : (p.1 == k) = false := by simpa using h
        simp only [hb, Bool.false_eq_true, if_false]
        exact ih

lemma find?_map_replace_ne (fs : List (String × JsonV)) (k k2 : String) (x : JsonV)
    (hne : k ≠ k2) :
    (fs.map (fun p => if p.1 == k then (p.1, x) else p)).find? (fun p => p.1 == k2) =
      fs.find? (fun p => p.1 == k2) := by
  induction fs with
  | nil => rfl
  | cons p t ih =>
      simp only [List.map_cons, List.find?_cons]
      by_cases hp : (p.1 == k) = true
      · have hpk : p.1 = k := by simpa using hp
        have hp2 : (p.1 == k2) = false := by
          rw [hpk]
          exact beq_false_of_ne hne
        simp only [hp, if_true, hp2, Bool.false_eq_true]
        exact ih
      · have hb : (p.1 == k) = false := by simpa using hp
        simp only [hb, Bool.false_eq_true, if_false]
        by_cases hq : (p.1 == k2) = true
        · simp only [hq, if_true]
        · have hq2 : (p.1 == k2) = false := by simpa using hq
          simp only [hq2, Bool.false_eq_true]
          exact ih

lemma getField_setField_self (fs : List (String × JsonV)) (k : String) (x : JsonV) :
    getField (setField (.obj fs) k x) k = some x := by
  cases hfind : fs.find? (fun p => p.1 == k) with
  | some p =>
      have hset : setField (.obj fs) k x =
          .obj (fs.map (fun q => if q.1 == k then (q.1, x) else q)) := by
        simp only [setField, hfind, Option.isSome_some, if_true]
      rw [hset]
      simp only [getField]
      rw [find?_map_replace, hfind]
      rfl
  | none =>
      have hset : setField (.obj fs) k x = .obj (fs ++ [(k, x)]) := by
        simp only [setField, hfind, Option.isSome_none, Bool.false_eq_true, if_false]
      rw [hset]
      simp only [getField]
      rw [List.find?_append, hfind]
      simp [List.find?]

lemma getField_setField_ne (fs : List (String × JsonV)) (k k2 : String) (x : JsonV)
    (hne : k ≠ k2) :
    getField (setField (.obj fs) k x) k2 = getField (.obj fs) k2 := by
  cases hfind : fs.find? (fun p => p.1 == k) with
  | some p =>
      have hset : setField (.obj fs) k x =
          .obj (fs.map (fun q => if q.1 == k then (q.1, x) else q)) := by
        simp only [setField, hfind, Option.isSome_some, if_true]
      rw [hset]
      simp only [getField]
      rw [find?_map_replace_ne fs k k2 x hne]
  | none =>
      have hset : setField (.obj fs) k x = .obj (fs ++ [(k, x)]) := by
        simp only [setField, hfind, Option.isSome_none, Bool.false_eq_true, if_false]
      rw [hset]
      simp only [getField]
      rw [List.find?_append]
      have hsing : ([((k : String), x)].find? (fun p => p.1 == k2)) = none := by
        simp only [List.find?, beq_false_of_ne hne]
      rw [hsing]
      simp

lemma setField_isObj (fs : List (String × JsonV)) (k : String) (x : JsonV) :
    ∃ fs2, setField (.obj fs) k x = .obj fs2 := by
  cases hfind : fs.find? (fun p => p.1 == k) with
  | some p =>
      exact ⟨fs.map (fun q => if q.1 == k then (q.1, x) else q), by
        simp only [setField, hfind, Option.isSome_some, if_true]⟩
  | none =>
      exact ⟨fs ++ [(k, x)], by
        simp only [setField, hfind, Option.isSome_none, Bool.false_eq_true, if_false]⟩

lemma getElem0_take_min64 (l : List Nat) : (l.take (min 64 l.length))[0]? = l[0]? := by
  cases l with
  | nil => rfl
  | cons a t => rw [ List.getElem?_take]; simp [Nat.lt_min]

lemma getElem1_take_min64 (l : List Nat) : (l.take (min 64 l.length))[1]? = l[1]? := by
  match l with
  | [] => rfl
  | [a] => rfl
  | a :: b :: t => rw [ List.getElem?_take]; simp [Nat.lt_min]

/-! ### Claim C8 -/

/-- C8 counterexample: a payload of 64 spaces followed by a brace.  Its
content trimmed of leading whitespace begins with a brace, so the claim
classifies it into the JSON family, but `detectBundleType` only peeks at
the first 64 bytes (all spaces) and falls through to the archive-family
default. -/
theorem C8_counterexample :
    detectBundleType (List.replicate 64 0x20 ++ [0x7b]) none = BundleType.dxt ∧
    detectBundleTypeClaimed (List.replicate 64 0x20 ++ [0x7b]) none = BundleType.mcpbJson := by
  constructor
  · decide
  · decide

/-- C8 amended: classification follows extension hints first
(.dxt, then .mcpb), then the two-byte archive signature, then the
brace sniff on the payload restricted to its first 64 bytes and trimmed
of leading whitespace, else the archive-family default.  This matches
`detectBundleType` on every input. -/
theorem C8_detect_amended (file : List Nat) (fileName : Option String) :
    detectBundleType file fileName = detectBundleTypeClaimedWindowed file fileName := by
  simp only [detectBundleType, detectBundleTypeClaimedWindowed,
    getElem0_take_min64, getElem1_take_min64]

/-! ### Claim C9 -/

/-- C9 counterexample: the record `obj [name := str ""]` is its own
decoded record (no `server` wrapper) and carries a `name` field, so by
the claim the decoder should return a configuration record; the code
instead rejects it because `!config.name` treats the empty string as
missing. -/
theorem C9_counterexample :
    decodedRecord (JsonV.obj [("name", JsonV.str "")]) =
      Except.ok (JsonV.obj [("name", JsonV.str "")]) ∧
    hasNameField (JsonV.obj [("name", JsonV.str "")]) = true ∧
    processMcpbJson (JsonV.obj [("name", JsonV.str "")]) =
      Except.error "Invalid MCPB: missing \x27name\x27" := by
  refine ⟨rfl, rfl, rfl⟩

/-- C9 amended: on the parse result JSON `null` the decoder fails with
the TypeError thrown by the `parsed.server` access (rethrown by the
catch block with its own message); otherwise the unwrapping succeeds,
and if the decoded record lacks a truthy `name` (the field is absent,
or the record is not an object, or the name is empty/falsy), the
decoder fails with one of its two descriptive validation errors;
otherwise the decoder succeeds with a record that keeps `name`,
defaults `serverType` to "local" exactly when it was not truthy,
defaults `env` to the empty mapping exactly when it was not truthy,
and sets `disabled`, `autoStart` and `verificationStatus` to their
nullish-coalesced values (defaulting to `false`, `false` and
"unverified" when absent or null). -/
theorem C9_process_amended (v : JsonV) :
    (v = JsonV.null →
      processMcpbJson v =
        Except.error "Cannot read properties of null (reading \x27server\x27)") ∧
    (∀ c, decodedRecord v = Except.ok c →
      (truthyO (getField c "name") = false →
        (processMcpbJson v = Except.error "Invalid MCPB content: not an object" ∨
         processMcpbJson v = Except.error "Invalid MCPB: missing \x27name\x27")) ∧
      (truthyO (getField c "name") = true →
        ∃ out, processMcpbJson v = Except.ok out ∧
          getField out "name" = getField c "name" ∧
          (truthyO (getField c "serverType") = false →
            getField out "serverType" = some (JsonV.str "local")) ∧
          (truthyO (getField c "serverType") = true →
            getField out "serverType" = getField c "serverType") ∧
          (truthyO (getField c "env") = false →
            getField out "env" = some (JsonV.obj [])) ∧
          (truthyO (getField c "env") = true →
            getField out "env" = getField c "env") ∧
          getField out "disabled" =
            some (nullishD (getField c "disabled") (JsonV.bool false)) ∧
          getField out "autoStart" =
            some (nullishD (getField c "autoStart") (JsonV.bool false)) ∧
          getField out "verificationStatus" =
            some (nullishD (getField c "verificationStatus")
              (JsonV.str "unverified")))) := by
  constructor
  · intro hv
    subst hv
    rfl
  · intro c hc
    constructor
    · intro hname
      by_cases hcond : (!truthy c || !isObjectType c) = true
      · left
        simp only [processMcpbJson, hc, hcond, if_true]
      · right
        have hcond2 : (!truthy c || !isObjectType c) = false := by
          simpa using hcond
        simp only [processMcpbJson, hc, hcond2, Bool.false_eq_true, if_false, hname,
          Bool.not_false, if_true]
    · intro hname
      cases hcv : c with
      | null => rw [hcv] at hname; simp [getField, truthyO] at hname
      | bool b => rw [hcv] at hname; simp [getField, truthyO] at hname
      | num n => rw [hcv] at hname; simp [getField, truthyO] at hname
      | str s => rw [hcv] at hname; simp [getField, truthyO] at hname
      | arr es => rw [hcv] at hname; simp [getField, truthyO] at hname
      | obj fs =>
        rw [hcv] at hname
        rw [hcv] at hc
        simp only [processMcpbJson, hc, truthy, isObjectType, Bool.not_true, Bool.or_self,
          Bool.false_eq_true, if_false, hname]
        by_cases hst : truthyO (getField (JsonV.obj fs) "serverType") = true
        · simp only [hst, Bool.not_true, Bool.false_eq_true, if_false]
          by_cases henv : truthyO (getField (JsonV.obj fs) "env") = true
          · simp only [henv, Bool.not_true, Bool.false_eq_true, if_false]
            obtain ⟨fs3, e3⟩ := setField_isObj fs "disabled"
              (nullishD (getField (JsonV.obj fs) "disabled") (JsonV.bool false))
            rw [e3]
            have p3 : ∀ k2, "disabled" ≠ k2 →
                getField (JsonV.obj fs3) k2 = getField (JsonV.obj fs) k2 := by
              intro k2 hk
              rw [← e3, getField_setField_ne _ _ _ _ hk]
            have s3 : getField (JsonV.obj fs3) "disabled" =
                some (nullishD (getField (JsonV.obj fs) "disabled") (JsonV.bool false)) := by
              rw [← e3, getField_setField_self]
            obtain ⟨fs4, e4⟩ := setField_isObj fs3 "autoStart"
              (nullishD (getField (JsonV.obj fs3) "autoStart") (JsonV.bool false))
            rw [e4]
            have p4 : ∀ k2, "autoStart" ≠ k2 →
                getField (JsonV.obj fs4) k2 = getField (JsonV.obj fs3) k2 := by
              intro k2 hk
              rw [← e4, getField_setField_ne _ _ _ _ hk]
            have s4 : getField (JsonV.obj fs4) "autoStart" =
                some (nullishD (getField (JsonV.obj fs3) "autoStart") (JsonV.bool false)) := by
              rw [← e4, getField_setField_self]
            refine ⟨_, rfl, ?_, ?_, ?_, ?_, ?_, ?_, ?_, ?_⟩
            · rw [getField_setField_ne _ _ _ _ (by decide), p4 _ (by decide), p3 _ (by decide)]
            · intro hc
              simp at hc
            · intro
              rw [getField_setField_ne _ _ _ _ (by decide), p4 _ (by decide), p3 _ (by decide)]
            · intro hc
              simp at hc
            · intro
              rw [getField_setField_ne _ _ _ _ (by decide), p4 _ (by decide), p3 _ (by decide)]
            · rw [getField_setField_ne _ _ _ _ (by decide), p4 _ (by decide), s3]
            · rw [getField_setField_ne _ _ _ _ (by decide), s4, p3 _ (by decide)]
            · rw [getField_setField_self, p4 _ (by decide), p3 _ (by decide)]
          · have henv2 : truthyO (getField (JsonV.obj fs) "env") = false := by simpa using henv
            simp only [henv2, Bool.not_false, if_true]
            obtain ⟨fs2, e2⟩ := setField_isObj fs "env" (JsonV.obj [])
            rw [e2]
            have p2 : ∀ k2, "env" ≠ k2 →
                getField (JsonV.obj fs2) k2 = getField (JsonV.obj fs) k2 := by
              intro k2 hk
              rw [← e2, getField_setField_ne _ _ _ _ hk]
            have s2 : getField (JsonV.obj fs2) "env" = some (JsonV.obj []) := by
              rw [← e2, getField_setField_self]
            obtain ⟨fs3, e3⟩ := setField_isObj fs2 "disabled"
              (nullishD (getField (JsonV.obj fs2) "disabled") (JsonV.bool false))
            rw [e3]
            have p3 : ∀ k2, "disabled" ≠ k2 →
                getField (JsonV.obj fs3) k2 = getField (JsonV.obj fs2) k2 := by
              intro k2 hk
              rw [← e3, getField_setField_ne _ _ _ _ hk]
            have s3 : getField (JsonV.obj fs3) "disabled" =
                some (nullishD (getField (JsonV.obj fs2) "disabled") (JsonV.bool false)) := by
              rw [← e3, getField_setField_self]
            obtain ⟨fs4, e4⟩ := setField_isObj fs3 "autoStart"
              (nullishD (getField (JsonV.obj fs3) "autoStart") (JsonV.bool false))
            rw [e4]
            have p4 : ∀ k2, "autoStart" ≠ k2 →
                getField (JsonV.obj fs4) k2 = getField (JsonV.obj fs3) k2 := by
              intro k2 hk
              rw [← e4, getField_setField_ne _ _ _ _ hk]
            have s4 : getField (JsonV.obj fs4) "autoStart" =
                some (nullishD (getField (JsonV.obj fs3) "autoStart") (JsonV.bool false)) := by
              rw [← e4, getField_setField_self]
            refine ⟨_, rfl, ?_, ?_, ?_, ?_, ?_, ?_, ?_, ?_⟩
            · rw [getField_setField_ne _ _ _ _ (by decide), p4 _ (by decide), p3 _ (by decide),
                p2 _ (by decide)]
            · intro hc
              simp at hc
            · intro
              rw [getField_setField_ne _ _ _ _ (by decide), p4 _ (by decide), p3 _ (by decide),
                p2 _ (by decide)]
            · intro
              rw [getField_setField_ne _ _ _ _ (by decide), p4 _ (by decide), p3 _ (by decide), s2]
            · intro hc
              simp at hc
            · rw [getField_setField_ne _ _ _ _ (by decide), p4 _ (by decide), s3, p2 _ (by decide)]
            · rw [getField_setField_ne _ _ _ _ (by decide), s4, p3 _ (by decide), p2 _ (by decide)]
            · rw [getField_setField_self, p4 _ (by decide), p3 _ (by decide), p2 _ (by decide)]
        · have hst2 : truthyO (getField (JsonV.obj fs) "serverType") = false := by simpa using hst
          simp only [hst2, Bool.not_false, if_true]
          obtain ⟨fs1, e1⟩ := setField_isObj fs "serverType" (JsonV.str "local")
          rw [e1]
          have p1 : ∀ k2, "serverType" ≠ k2 →
              getField (JsonV.obj fs1) k2 = getField (JsonV.obj fs) k2 := by
            intro k2 hk
            rw [← e1, getField_setField_ne _ _ _ _ hk]
          have s1 : getField (JsonV.obj fs1) "serverType" = some (JsonV.str "local") := by
            rw [← e1, getField_setField_self]
          rw [p1 "env" (by decide)]
          by_cases henv : truthyO (getField (JsonV.obj fs) "env") = true
          · simp only [henv, Bool.not_true, Bool.false_eq_true, if_false]
            obtain ⟨fs3, e3⟩ := setField_isObj fs1 "disabled"
              (nullishD (getField (JsonV.obj fs1) "disabled") (JsonV.bool false))
            rw [e3]
            have p3 : ∀ k2, "disabled" ≠ k2 →
                getField (JsonV.obj fs3) k2 = getField (JsonV.obj fs1) k2 := by
              intro k2 hk
              rw [← e3, getField_setField_ne _ _ _ _ hk]
            have s3 : getField (JsonV.obj fs3) "disabled" =
                some (nullishD (getField (JsonV.obj fs1) "disabled") (JsonV.bool false)) := by
              rw [← e3, getField_setField_self]
            obtain ⟨fs4, e4⟩ := setField_isObj fs3 "autoStart"
              (nullishD (getField (JsonV.obj fs3) "autoStart") (JsonV.bool false))
            rw [e4]
            have p4 : ∀ k2, "autoStart" ≠ k2 →
                getField (JsonV.obj fs4) k2 = getField (JsonV.obj fs3) k2 := by
              intro k2 hk
              rw [← e4, getField_setField_ne _ _ _ _ hk]
            have s4 : getField (JsonV.obj fs4) "autoStart" =
                some (nullishD (getField (JsonV.obj fs3) "autoStart") (JsonV.bool false)) := by
              rw [← e4, getField_setField_self]
            refine ⟨_, rfl, ?_, ?_, ?_, ?_, ?_, ?_, ?_, ?_⟩
            · rw [getField_setField_ne _ _ _ _ (by decide), p4 _ (by decide), p3 _ (by decide),
                p1 _ (by decide)]
            · intro
              rw [getField_setField_ne _ _ _ _ (by decide), p4 _ (by decide), p3 _ (by decide), s1]
            · intro hc
              simp at hc
            · intro hc
              simp at hc
            · intro
              rw [getField_setField_ne _ _ _ _ (by decide), p4 _ (by decide), p3 _ (by decide),
                p1 _ (by decide)]
            · rw [getField_setField_ne _ _ _ _ (by decide), p4 _ (by decide), s3, p1 _ (by decide)]
            · rw [getField_setField_ne _ _ _ _ (by decide), s4, p3 _ (by decide), p1 _ (by decide)]
            · rw [getField_setField_self, p4 _ (by decide), p3 _ (by decide), p1 _ (by decide)]
          · have henv2 : truthyO (getField (JsonV.obj fs) "env") = false := by simpa using henv
            simp only [henv2, Bool.not_false, if_true]
            obtain ⟨fs2, e2⟩ := setField_isObj fs1 "env" (JsonV.obj [])
            rw [e2]
            have p2 : ∀ k2, "env" ≠ k2 →
                getField (JsonV.obj fs2) k2 = getField (JsonV.obj fs1) k2 := by
              intro k2 hk
              rw [← e2, getField_setField_ne _ _ _ _ hk]
            have s2 : getField (JsonV.obj fs2) "env" = some (JsonV.obj []) := by
              rw [← e2, getField_setField_self]
            obtain ⟨fs3, e3⟩ := setField_isObj fs2 "disabled"
              (nullishD (getField (JsonV.obj fs2) "disabled") (JsonV.bool false))
            rw [e3]
            have p3 : ∀ k2, "disabled" ≠ k2 →
                getField (JsonV.obj fs3) k2 = getField (JsonV.obj fs2) k2 := by
              intro k2 hk
              rw [← e3, getField_setField_ne _ _ _ _ hk]
            have s3 : getField (JsonV.obj fs3) "disabled" =
                some (nullishD (getField (JsonV.obj fs2) "disabled") (JsonV.bool false)) := by
              rw [← e3, getField_setField_self]
            obtain ⟨fs4, e4⟩ := setField_isObj fs3 "autoStart"
              (nullishD (getField (JsonV.obj fs3) "autoStart") (JsonV.bool false))
            rw [e4]
            have p4 : ∀ k2, "autoStart" ≠ k2 →
                getField (JsonV.obj fs4) k2 = getField (JsonV.obj fs3) k2 := by
              intro k2 hk
              rw [← e4, getField_setField_ne _ _ _ _ hk]
            have s4 : getField (JsonV.obj fs4) "autoStart" =
                some (nullishD (getField (JsonV.obj fs3) "autoStart") (JsonV.bool false)) := by
              rw [← e4, getField_setField_self]
            refine ⟨_, rfl, ?_, ?_, ?_, ?_, ?_, ?_, ?_, ?_⟩
            · rw [getField_setField_ne _ _ _ _ (by decide), p4 _ (by decide), p3 _ (by decide),
                p2 _ (by decide), p1 _ (by decide)]
            · intro
              rw [getField_setField_ne _ _ _ _ (by decide), p4 _ (by decide), p3 _ (by decide),
                p2 _ (by decide), s1]
            · intro hc
              simp at hc
            · intro
              rw [getField_setField_ne _ _ _ _ (by decide), p4 _ (by decide), p3 _ (by decide), s2]
            · intro hc
              simp at hc
            · rw [getField_setField_ne _ _ _ _ (by decide), p4 _ (by decide), s3,
                p2 _ (by decide), p1 _ (by decide)]
            · rw [getField_setField_ne _ _ _ _ (by decide), s4, p3 _ (by decide),
                p2 _ (by decide), p1 _ (by decide)]
            · rw [getField_setField_self, p4 _ (by decide), p3 _ (by decide),
                p2 _ (by decide), p1 _ (by decide)]

/-- Witness for C9: the amended theorem applied at three concrete parse
results, one hitting the TypeError branch, one hitting the validation
error branch, and one hitting the success branch with `serverType`
defaulted. -/
theorem C9_process_amended_witness :
    processMcpbJson JsonV.null =
      Except.error "Cannot read properties of null (reading \x27server\x27)" ∧
    (processMcpbJson (JsonV.obj []) = Except.error "Invalid MCPB content: not an object" ∨
     processMcpbJson (JsonV.obj []) = Except.error "Invalid MCPB: missing \x27name\x27") ∧
    (∃ out, processMcpbJson (JsonV.obj [("name", JsonV.str "n")]) = Except.ok out ∧
      getField out "serverType" = some (JsonV.str "local")) := by
  refine ⟨(C9_process_amended JsonV.null).1 rfl, ?_, ?_⟩
  · exact ((C9_process_amended (JsonV.obj [])).2 (JsonV.obj []) rfl).1 (by rfl)
  · obtain ⟨hn, hp⟩ := (C9_process_amended (JsonV.obj [("name", JsonV.str "n")])).2
      (JsonV.obj [("name", JsonV.str "n")]) rfl
    obtain ⟨out, hok, hname, hst, rest⟩ := hp (by rfl)
    exact ⟨out, hok, hst (by rfl)⟩

/-! ## Part B: ConversionQueueService

The queue module mutates `ConversionJob` objects held in a `Map` and
broadcasts shallow snapshots (`{ ...job }`) on an event emitter.  The
state machine below follows JavaScript event-loop atomicity:

* `enqueue` runs synchronously: it creates the job, appends it to the
  pending queue, emits the `queued` snapshot, and then runs the
  synchronous prefix of `processNext` (`void this.processNext()`),
  which either returns at the `processing` guard / empty queue, or
  marks the job processing (progress 5, then 50, emitting snapshots)
  and stops at `await processBundleFile(...)`.
* `processNextResume` is the continuation after that `await`: the
  success or failure handling, the terminal snapshot emission, the
  `finally` clearing of the flag and the synchronous prefix of the
  recursive `processNext` call.

The emitter's broadcast history is the `trace`; a subscriber observes
the events of the trace in order.  Job ids are uuids in the source;
they are modelled by the counter `nextId` (uuid collisions are assumed
absent), so enqueue returns ids 0, 1, 2, ... in call order.  The
`createdAt`/`updatedAt` wall-clock fields are advisory and are not
modelled.  Payload bytes and result records are references (`Ref`)
into an external heap, mirroring JavaScript object identity. -/

abbrev Ref := Nat

/-- Job lifecycle states of the queue module. -/
inductive ConversionStatus
  | queued
  | processing
  | completed
  | failed
deriving DecidableEq, Repr

/-- The `ConversionJob` record.  `file` and `result` are references to
heap objects (a `Uint8Array` and an `MCPServerConfig`). -/
structure ConversionJob where
  id : Nat
  status : ConversionStatus
  progress : Nat
  file : Ref
  fileName : Option String
  result : Option Ref
  error : Option String
deriving DecidableEq, Repr

/-- The shallow spread `{ ...job }`: a fresh record whose fields are
the old field values.  The nested references (`file`, `result`) are
copied as references, exactly as the JavaScript spread operator does. -/
def spreadCopy (j : ConversionJob) : ConversionJob :=
  { id := j.id, status := j.status, progress := j.progress, file := j.file,
    fileName := j.fileName, result := j.result, error := j.error }

/-- State of the `ConversionQueueService` instance: the `jobs` map, the
pending `queue`, the in-flight job of the suspended `processNext` frame
(`inFlight.isSome` is the `processing` boolean guard), the id counter,
and the emitter's broadcast history. -/
structure QState where
  jobs : Nat → Option ConversionJob
  queue : List Nat
  inFlight : Option Nat
  nextId : Nat
  trace : List ConversionJob

/-- The `processing` guard flag of the service. -/
def QState.processing (s : QState) : Bool := s.inFlight.isSome

/-- `Map.set`: point update of the jobs map. -/
def mapSet (m : Nat → Option ConversionJob) (k : Nat) (j : ConversionJob) :
    Nat → Option ConversionJob :=
  fun i => if i = k then some j else m i

/-- The freshly constructed service (`new ConversionQueueService()`). -/
def initState : QState :=
  { jobs := fun _ => none, queue := [], inFlight := none, nextId := 0, trace := [] }

/-- Synchronous prefix of `processNext` (lines 76-95): the `processing`
guard, the `queue.shift()`, the defensive missing-job check, and the
transition to `processing` with progress 5 and then 50, each emitted;
execution stops at `await processBundleFile(job.file, job.fileName)`,
recorded by `inFlight := some nextId`. -/
def processNext (s : QState) : QState :=
  if s.processing then s
  else
    match s.queue with
    | [] => s
    | nextId :: rest =>
        match s.jobs nextId with
        | none => { s with queue := rest }
        | some job =>
            let job1 := { job with status := ConversionStatus.processing, progress := 5 }
            let job2 := { job1 with progress := 50 }
            { s with queue := rest,
                     jobs := mapSet s.jobs nextId job2,
                     inFlight := some nextId,
                     trace := s.trace ++ [spreadCopy job1, spreadCopy job2] }

/-- `enqueue(file, fileName)` (lines 27-44): creates the job in
`queued` state with progress 0, stores it, appends the id to the
pending queue, emits the snapshot, and runs the synchronous prefix of
`processNext`.  Returns the new state and the job id. -/
def enqueue (s : QState) (file : Ref) (fileName : Option String) : QState × Nat :=
  let id := s.nextId
  let job : ConversionJob :=
    { id := id, status := ConversionStatus.queued, progress := 0, file := file,
      fileName := fileName, result := none, error := none }
  let s1 : QState :=
    { s with jobs := mapSet s.jobs id job, queue := s.queue ++ [id],
             nextId := id + 1, trace := s.trace ++ [spreadCopy job] }
  (processNext s1, id)

/-- Result of the awaited `processBundleFile` call: success with a
reference to the configuration record, or a thrown error with an
optional `message` and a `String(err)` rendering. -/
inductive Outcome
  | ok (result : Ref)
  | err (message : Option String) (asString : String)

/-- JavaScript `a || b` on a possibly-undefined string: the fallback
applies when the string is absent or empty (both falsy). -/
def jsOrElse : Option String → String → String
  | some m, d => if m = "" then d else m
  | none, d => d

/-- Continuation of `processNext` after the `await` (lines 97-113): on
success set progress 100, status completed, attach the result; on
failure set status failed and store `err?.message || String(err)`;
emit the terminal snapshot; clear the `processing` flag (`finally`) and
run the synchronous prefix of the recursive `processNext` call.  When
no call is in flight the action is impossible and modelled as a no-op. -/
def processNextResume (s : QState) (o : Outcome) : QState :=
  match s.inFlight with
  | none => s
  | some id =>
      match s.jobs id with
      | none => processNext { s with inFlight := none }
      | some job =>
          match o with
          | .ok r =>
              let jobC := { job with
                progress := 100, status := ConversionStatus.completed, result := some r }
              processNext { s with
                jobs := mapSet s.jobs id jobC, inFlight := none,
                trace := s.trace ++ [spreadCopy jobC] }
          | .err m str =>
              let jobF := { job with
                status := ConversionStatus.failed, error := some (jsOrElse m str) }
              processNext { s with
                jobs := mapSet s.jobs id jobF, inFlight := none,
                trace := s.trace ++ [spreadCopy jobF] }

/-- `getJob(id)` (lines 63-66): a shallow snapshot of the stored job,
or absence. -/
def getJob (s : QState) (id : Nat) : Option ConversionJob :=
  match s.jobs id with
  | some job => some (spreadCopy job)
  | none => none

/-- External interaction steps: an `enqueue` call (which includes the
synchronous drain prefix), or the completion of the in-flight processor
call with a given outcome. -/
inductive Act
  | enq (file : Ref) (fileName : Option String)
  | fin (o : Outcome)

/-- Apply one interaction step. -/
def applyAct (s : QState) (a : Act) : QState :=
  match a with
  | .enq f n => (enqueue s f n).1
  | .fin o => processNextResume s o

/-- Run a sequence of interaction steps from a given state. -/
def runFrom (s : QState) (acts : List Act) : QState := acts.foldl applyAct s

/-- Run a sequence of interaction steps on a fresh service; every
reachable service state is `run acts` for some action list. -/
def run (acts : List Act) : QState := runFrom initState acts

/-- The external heap holding byte buffers, and a write through a
reference: used to express what mutating a (possibly shared) nested
`Uint8Array` does. -/
abbrev Heap := Ref → List Nat

/-- Mutation of the buffer behind a reference. -/
def heapWrite (h : Heap) (r : Ref) (v : List Nat) : Heap :=
  fun x => if x = r then v else h x

/-- State of the one-shot `onUpdate` listener that `enqueueAndWait`
registers (lines 46-61): whether it has removed itself from the
emitter, and the settlement of its promise. -/
structure WaiterState where
  removed : Bool
  settled : Option (Except String Ref)
deriving Repr

/-- Listener state right after subscription. -/
def waiterInit : WaiterState := { removed := false, settled := none }

/-- One delivery of an `update` event to the waiter for job `id`: a
removed listener receives nothing; an event for another job id is
ignored; `completed` with a truthy `result` resolves, `failed` rejects
with `job.error || "Conversion failed"`; each terminal path removes the
listener. -/
def onUpdate (id : Nat) (w : WaiterState) (ev : ConversionJob) : WaiterState :=
  if w.removed then w
  else if ev.id ≠ id then w
  else
    match ev.status, ev.result with
    | ConversionStatus.completed, some r =>
        { removed := true, settled := some (Except.ok r) }
    | ConversionStatus.failed, _ =>
        { removed := true, settled := some (Except.error (jsOrElse ev.error "Conversion failed")) }
    | _, _ => w

/-- Deliver a list of events to the waiter for job `id`, in order,
starting from the fresh subscription. -/
def waiterRun (id : Nat) (evs : List ConversionJob) : WaiterState :=
  evs.foldl (onUpdate id) waiterInit

/-! ### Invariant of reachable service states -/

/-- Terminal statuses. -/
def terminalB (st : ConversionStatus) : Bool :=
  st == ConversionStatus.completed || st == ConversionStatus.failed

/-- Number of jobs that have reached a terminal state, read off the
broadcast history. -/
def doneCount (s : QState) : Nat :=
  (s.trace.filter (fun ev => terminalB ev.status)).length

/-- One if a processor call is in flight, zero otherwise. -/
def flightBit (s : QState) : Nat := if s.inFlight.isSome then 1 else 0

/-- The `queued` snapshot of job `i` (progress 0). -/
def q0 (i : Nat) (f : Ref) (n : Option String) : ConversionJob :=
  { id := i, status := ConversionStatus.queued, progress := 0, file := f,
    fileName := n, result := none, error := none }

/-- The first `processing` snapshot of job `i` (progress 5). -/
def p5 (i : Nat) (f : Ref) (n : Option String) : ConversionJob :=
  { id := i, status := ConversionStatus.processing, progress := 5, file := f,
    fileName := n, result := none, error := none }

/-- The second `processing` snapshot of job `i` (progress 50, emitted
just before the processor is invoked). -/
def p50 (i : Nat) (f : Ref) (n : Option String) : ConversionJob :=
  { id := i, status := ConversionStatus.processing, progress := 50, file := f,
    fileName := n, result := none, error := none }

/-- The exact broadcast sequence observed for a job currently in state
`j`: its `queued` snapshot, then (once picked up) the progress 5 and
progress 50 `processing` snapshots, then (once terminal) the terminal
snapshot, which is the stored record itself. -/
def expectedTrace (j : ConversionJob) : List ConversionJob :=
  match j.status with
  | ConversionStatus.queued => [q0 j.id j.file j.fileName]
  | ConversionStatus.processing => [q0 j.id j.file j.fileName, p5 j.id j.file j.fileName, j]
  | ConversionStatus.completed =>
      [q0 j.id j.file j.fileName, p5 j.id j.file j.fileName, p50 j.id j.file j.fileName, j]
  | ConversionStatus.failed =>
      [q0 j.id j.file j.fileName, p5 j.id j.file j.fileName, p50 j.id j.file j.fileName, j]

/-- Inductive invariant of every reachable service state.  Writing
`d = doneCount s`: jobs `0 .. d-1` are terminal (completed with
progress 100 and a result, or failed with progress 50 and an error);
when a call is in flight it concerns exactly job `d`, which is stored
as `processing` with progress 50, and the pending queue holds exactly
`d+1 .. nextId-1` in order; when idle, everything is terminal and the
queue is empty; jobs after the in-flight one are still `queued` with
progress 0; the broadcast history restricted to any job id is exactly
`expectedTrace` of the stored record; and the terminal broadcasts
occurred in id order `0, 1, ..., d-1`. -/
structure QInv (s : QState) : Prop where
  dom : ∀ i, (s.jobs i).isSome = true ↔ i < s.nextId
  ids : ∀ i j, s.jobs i = some j → j.id = i
  dLe : doneCount s ≤ s.nextId
  doneJobs : ∀ i j, s.jobs i = some j → i < doneCount s →
    (j.status = ConversionStatus.completed ∧ j.progress = 100 ∧
      j.result.isSome = true ∧ j.error = none) ∨
    (j.status = ConversionStatus.failed ∧ j.progress = 50 ∧
      j.result = none ∧ j.error.isSome = true)
  flightSome : ∀ i, s.inFlight = some i →
    i = doneCount s ∧ doneCount s < s.nextId ∧
    (∀ j, s.jobs i = some j → j.status = ConversionStatus.processing ∧ j.progress = 50 ∧
      j.result = none ∧ j.error = none) ∧
    s.queue = List.range' (doneCount s + 1) (s.nextId - doneCount s - 1)
  flightNone : s.inFlight = none → doneCount s = s.nextId ∧ s.queue = []
  queuedJobs : ∀ i j, s.jobs i = some j → doneCount s + flightBit s ≤ i →
    j.status = ConversionStatus.queued ∧ j.progress = 0 ∧ j.result = none ∧ j.error = none
  traceShape : ∀ i j, s.jobs i = some j →
    s.trace.filter (fun ev => ev.id == i) = expectedTrace j
  traceDom : ∀ ev ∈ s.trace, ev.id < s.nextId
  termOrder : (s.trace.filter (fun ev => terminalB ev.status)).map (fun ev => ev.id) =
    List.range (doneCount s)

/-! ### Basic lemmas -/

lemma spreadCopy_eq (j : ConversionJob) : spreadCopy j = j := rfl

lemma mapSet_self (m : Nat → Option ConversionJob) (k : Nat) (j : ConversionJob) :
    mapSet m k j k = some j := by
  simp [mapSet]

lemma mapSet_ne (m : Nat → Option ConversionJob) (k : Nat) (j : ConversionJob) (i : Nat)
    (h : i ≠ k) : mapSet m k j i = m i := by
  simp [mapSet, h]

lemma mapSet_mapSet (m : Nat → Option ConversionJob) (k : Nat) (a b : ConversionJob) :
    mapSet (mapSet m k a) k b = mapSet m k b := by
  funext i
  by_cases h : i = k <;> simp [mapSet, h]

lemma inv_init : QInv initState := by
  constructor <;> simp [initState, doneCount, flightBit]

/-! ### Preservation of the invariant -/

lemma processNext_busy (s : QState) (h : s.inFlight.isSome = true) : processNext s = s := by
  simp [processNext, QState.processing, h]

lemma filter_id_nil_of_bound (tr : List ConversionJob) (n : Nat)
    (h : ∀ ev ∈ tr, ev.id < n) (i : Nat) (hi : n ≤ i) :
    tr.filter (fun ev => ev.id == i) = [] := by
  rw [List.filter_eq_nil_iff]
  intro a ha
  have := h a ha
  simp only [beq_iff_eq]
  omega

/-- A state that is about to run the synchronous prefix of
`processNext` while idle: all terminal jobs come first, every job from
`doneCount` on is still queued, and the pending queue lists exactly the
unfinished ids in order. -/
structure PreInv (s : QState) : Prop where
  dom : ∀ i, (s.jobs i).isSome = true ↔ i < s.nextId
  ids : ∀ i j, s.jobs i = some j → j.id = i
  dLe : doneCount s ≤ s.nextId
  doneJobs : ∀ i j, s.jobs i = some j → i < doneCount s →
    (j.status = ConversionStatus.completed ∧ j.progress = 100 ∧
      j.result.isSome = true ∧ j.error = none) ∨
    (j.status = ConversionStatus.failed ∧ j.progress = 50 ∧
      j.result = none ∧ j.error.isSome = true)
  queuedAll : ∀ i j, s.jobs i = some j → doneCount s ≤ i →
    j.status = ConversionStatus.queued ∧ j.progress = 0 ∧ j.result = none ∧ j.error = none
  traceShape : ∀ i j, s.jobs i = some j →
    s.trace.filter (fun ev => ev.id == i) = expectedTrace j
  traceDom : ∀ ev ∈ s.trace, ev.id < s.nextId
  termOrder : (s.trace.filter (fun ev => terminalB ev.status)).map (fun ev => ev.id) =
    List.range (doneCount s)
  idle : s.inFlight = none
  queueShape : s.queue = List.range' (doneCount s) (s.nextId - doneCount s)

lemma inv_processNext (s : QState) (h : PreInv s) : QInv (processNext s) := by
  rcases h with ⟨dom, ids, dLe, doneJobs, queuedAll, traceShape, traceDom, termOrder,
    idle, queueShape⟩
  by_cases hempty : s.nextId - doneCount s = 0
  · have hq : s.queue = [] := by rw [queueShape, hempty]; rfl
    have hdn : doneCount s = s.nextId := by omega
    have hpn : processNext s = s := by
      simp [processNext, QState.processing, idle, hq]
    rw [hpn]
    refine ⟨dom, ids, dLe, doneJobs, ?_, ?_, ?_, traceShape, traceDom, termOrder⟩
    · intro i hi
      rw [idle] at hi
      cases hi
    · intro _
      exact ⟨hdn, hq⟩
    · intro i j hj hge
      refine queuedAll i j hj ?_
      omega
  · obtain ⟨m, hm⟩ : ∃ m, s.nextId - doneCount s = m + 1 :=
      ⟨s.nextId - doneCount s - 1, by omega⟩
    have hq : s.queue = doneCount s :: List.range' (doneCount s + 1) m := by
      rw [queueShape, hm, List.range'_succ]
    have hdlt : doneCount s < s.nextId := by omega
    have hjd : (s.jobs (doneCount s)).isSome = true := (dom _).mpr hdlt
    obtain ⟨jq, hjq⟩ := Option.isSome_iff_exists.mp hjd
    obtain ⟨hqs, hqp, hqr, hqe⟩ := queuedAll _ _ hjq (Nat.le_refl _)
    have hqid : jq.id = doneCount s := ids _ _ hjq
    have hjq_eq : jq = q0 (doneCount s) jq.file jq.fileName := by
      cases jq
      simp_all [q0]
    have hpn : processNext s =
        { s with
          queue := List.range' (doneCount s + 1) m
          jobs := mapSet s.jobs (doneCount s) (p50 (doneCount s) jq.file jq.fileName)
          inFlight := some (doneCount s)
          trace := s.trace ++ [p5 (doneCount s) jq.file jq.fileName,
            p50 (doneCount s) jq.file jq.fileName] } := by
      rw [processNext]
      simp only [QState.processing, idle, Option.isSome_none, Bool.false_eq_true, if_false, hq]
      rw [hjq]
      rw [hjq_eq]
      rfl
    rw [hpn]
    have hdc : doneCount { s with
        queue := List.range' (doneCount s + 1) m
        jobs := mapSet s.jobs (doneCount s) (p50 (doneCount s) jq.file jq.fileName)
        inFlight := some (doneCount s)
        trace := s.trace ++ [p5 (doneCount s) jq.file jq.fileName,
          p50 (doneCount s) jq.file jq.fileName] } = doneCount s := by
      simp [doneCount, List.filter_append, terminalB, p5, p50]
    refine ⟨?_, ?_, ?_, ?_, ?_, ?_, ?_, ?_, ?_, ?_⟩
    all_goals dsimp only
    · intro i
      by_cases hi : i = doneCount s
      · subst hi
        rw [mapSet_self]
        simp only [Option.isSome_some, true_iff]
        omega
      · rw [mapSet_ne _ _ _ _ hi]
        exact dom i
    · intro i j hj
      by_cases hi : i = doneCount s
      · subst hi
        rw [mapSet_self] at hj
        cases hj
        rfl
      · rw [mapSet_ne _ _ _ _ hi] at hj
        exact ids i j hj
    · rw [hdc]
      omega
    · intro i j hj hlt
      rw [hdc] at hlt
      have hi : i ≠ doneCount s := by omega
      rw [mapSet_ne _ _ _ _ hi] at hj
      exact doneJobs i j hj hlt
    · intro i hi
      injection hi with hii
      subst hii
      rw [hdc]
      refine ⟨rfl, hdlt, ?_, ?_⟩
      · intro j hj
        rw [mapSet_self] at hj
        cases hj
        simp [p50]
      · congr 1
        omega
    · intro hnone
      simp at hnone
    · intro i j hj hge
      rw [hdc] at hge
      simp only [flightBit, Option.isSome_some, if_true] at hge
      have hi : i ≠ doneCount s := by omega
      rw [mapSet_ne _ _ _ _ hi] at hj
      exact queuedAll i j hj (by omega)
    · intro i j hj
      rw [List.filter_append]
      by_cases hi : i = doneCount s
      · subst hi
        rw [mapSet_self] at hj
        cases hj
        rw [traceShape _ _ hjq, hjq_eq]
        simp [expectedTrace, q0, p5, p50]
      · rw [mapSet_ne _ _ _ _ hi] at hj
        rw [traceShape _ _ hj]
        have hfil : ([p5 (doneCount s) jq.file jq.fileName,
            p50 (doneCount s) jq.file jq.fileName].filter (fun ev => ev.id == i)) = [] := by
          simp only [List.filter, p5, p50]
          have : ((doneCount s : Nat) == i) = false := by
            simpa using fun e => hi e.symm
          simp [this]
        rw [hfil, List.append_nil]
    · intro ev hev
      rw [List.mem_append] at hev
      rcases hev with hev | hev
      · exact traceDom ev hev
      · simp only [List.mem_cons, List.not_mem_nil, or_false] at hev
        rcases hev with rfl | rfl
        · simpa [p5] using hdlt
        · simpa [p50] using hdlt
    · rw [hdc, List.filter_append]
      have hfil : ([p5 (doneCount s) jq.file jq.fileName,
          p50 (doneCount s) jq.file jq.fileName].filter (fun ev => terminalB ev.status)) = [] := by
        simp [p5, p50, terminalB]
      rw [hfil, List.append_nil]
      exact termOrder

lemma enqueue_busy_eq (s : QState) (f : Ref) (n : Option String) (h : s.inFlight.isSome = true) :
    (enqueue s f n).1 = { s with
      jobs := mapSet s.jobs s.nextId (q0 s.nextId f n)
      queue := s.queue ++ [s.nextId]
      nextId := s.nextId + 1
      trace := s.trace ++ [q0 s.nextId f n] } := by
  show processNext _ = _
  rw [processNext_busy]
  · rfl
  · exact h

lemma enqueue_idle_eq (s : QState) (f : Ref) (n : Option String) :
    s.inFlight = none →
    (enqueue s f n).1 = processNext { s with
      jobs := mapSet s.jobs s.nextId (q0 s.nextId f n)
      queue := s.queue ++ [s.nextId]
      nextId := s.nextId + 1
      trace := s.trace ++ [q0 s.nextId f n] } := by
  intro _
  rfl

lemma inv_enqueue (s : QState) (f : Ref) (n : Option String) (h : QInv s) :
    QInv (enqueue s f n).1 := by
  rcases h with ⟨dom, ids, dLe, doneJobs, flightSome, flightNone, queuedJobs, traceShape,
    traceDom, termOrder⟩
  cases hif : s.inFlight with
  | some d =>
      rw [enqueue_busy_eq s f n (by rw [hif]; rfl)]
      obtain ⟨hd, hdlt, hjob, hqueue⟩ := flightSome d hif
      subst hd
      have hdc : doneCount { s with
          jobs := mapSet s.jobs s.nextId (q0 s.nextId f n)
          queue := s.queue ++ [s.nextId]
          nextId := s.nextId + 1
          trace := s.trace ++ [q0 s.nextId f n] } = doneCount s := by
        simp [doneCount, List.filter_append, terminalB, q0]
      refine ⟨?_, ?_, ?_, ?_, ?_, ?_, ?_, ?_, ?_, ?_⟩
      all_goals dsimp only
      · intro i
        by_cases hi : i = s.nextId
        · subst hi
          rw [mapSet_self]
          simp only [Option.isSome_some, true_iff]
          omega
        · rw [mapSet_ne _ _ _ _ hi]
          constructor
          · intro hx
            have := (dom i).mp hx
            omega
          · intro hx
            exact (dom i).mpr (by omega)
      · intro i j hj
        by_cases hi : i = s.nextId
        · subst hi
          rw [mapSet_self] at hj
          cases hj
          rfl
        · rw [mapSet_ne _ _ _ _ hi] at hj
          exact ids i j hj
      · rw [hdc]
        omega
      · intro i j hj hlt
        rw [hdc] at hlt
        have hi : i ≠ s.nextId := by omega
        rw [mapSet_ne _ _ _ _ hi] at hj
        exact doneJobs i j hj hlt
      · intro i hi
        rw [hif] at hi
        injection hi with hii
        subst hii
        rw [hdc]
        have hdne : doneCount s ≠ s.nextId := by omega
        refine ⟨rfl, by omega, ?_, ?_⟩
        · intro j hj
          rw [mapSet_ne _ _ _ _ hdne] at hj
          exact hjob j hj
        · rw [hqueue]
          have h1 : s.nextId + 1 - doneCount s - 1 = (s.nextId - doneCount s - 1) + 1 := by omega
          rw [h1, List.range'_concat]
          simp only [List.append_cancel_left_eq, List.cons.injEq, and_true]
          omega
      · intro hnone
        rw [hif] at hnone
        cases hnone
      · intro i j hj hge
        rw [hdc] at hge
        have hbit : flightBit { s with
            jobs := mapSet s.jobs s.nextId (q0 s.nextId f n)
            queue := s.queue ++ [s.nextId]
            nextId := s.nextId + 1
            trace := s.trace ++ [q0 s.nextId f n] } = flightBit s := by
          simp [flightBit]
        rw [hbit] at hge
        by_cases hi : i = s.nextId
        · subst hi
          rw [mapSet_self] at hj
          cases hj
          simp [q0]
        · rw [mapSet_ne _ _ _ _ hi] at hj
          exact queuedJobs i j hj hge
      · intro i j hj
        rw [List.filter_append]
        by_cases hi : i = s.nextId
        · subst hi
          rw [mapSet_self] at hj
          cases hj
          rw [filter_id_nil_of_bound s.trace s.nextId traceDom _ (Nat.le_refl _)]
          simp [expectedTrace, q0]
        · rw [mapSet_ne _ _ _ _ hi] at hj
          rw [traceShape _ _ hj]
          have hfil : ([q0 s.nextId f n].filter (fun ev => ev.id == i)) = [] := by
            have : ((s.nextId : Nat) == i) = false := by
              simpa using fun e => hi e.symm
            simp [q0, this]
          rw [hfil, List.append_nil]
      · intro ev hev
        rw [List.mem_append] at hev
        rcases hev with hev | hev
        · have := traceDom ev hev
          omega
        · simp only [List.mem_singleton] at hev
          subst hev
          simp [q0]
      · rw [hdc, List.filter_append]
        have hfil : ([q0 s.nextId f n].filter (fun ev => terminalB ev.status)) = [] := by
          simp [q0, terminalB]
        rw [hfil, List.append_nil]
        exact termOrder
  | none =>
      obtain ⟨hdn, hq⟩ := flightNone hif
      rw [enqueue_idle_eq s f n hif]
      apply inv_processNext
      have hdc : doneCount { s with
          jobs := mapSet s.jobs s.nextId (q0 s.nextId f n)
          queue := s.queue ++ [s.nextId]
          nextId := s.nextId + 1
          trace := s.trace ++ [q0 s.nextId f n] } = doneCount s := by
        simp [doneCount, List.filter_append, terminalB, q0]
      refine ⟨?_, ?_, ?_, ?_, ?_, ?_, ?_, ?_, ?_, ?_⟩
      all_goals dsimp only
      · intro i
        by_cases hi : i = s.nextId
        · subst hi
          rw [mapSet_self]
          simp only [Option.isSome_some, true_iff]
          omega
        · rw [mapSet_ne _ _ _ _ hi]
          constructor
          · intro hx
            have := (dom i).mp hx
            omega
          · intro hx
            exact (dom i).mpr (by omega)
      · intro i j hj
        by_cases hi : i = s.nextId
        · subst hi
          rw [mapSet_self] at hj
          cases hj
          rfl
        · rw [mapSet_ne _ _ _ _ hi] at hj
          exact ids i j hj
      · rw [hdc]
        omega
      · intro i j hj hlt
        rw [hdc] at hlt
        have hi : i ≠ s.nextId := by omega
        rw [mapSet_ne _ _ _ _ hi] at hj
        exact doneJobs i j hj hlt
      · intro i j hj hge
        rw [hdc] at hge
        by_cases hi : i = s.nextId
        · subst hi
          rw [mapSet_self] at hj
          cases hj
          simp [q0]
        · rw [mapSet_ne _ _ _ _ hi] at hj
          have := (dom i).mp (by rw [hj]; rfl)
          omega
      · intro i j hj
        rw [List.filter_append]
        by_cases hi : i = s.nextId
        · subst hi
          rw [mapSet_self] at hj
          cases hj
          rw [filter_id_nil_of_bound s.trace s.nextId traceDom _ (Nat.le_refl _)]
          simp [expectedTrace, q0]
        · rw [mapSet_ne _ _ _ _ hi] at hj
          rw [traceShape _ _ hj]
          have hfil : ([q0 s.nextId f n].filter (fun ev => ev.id == i)) = [] := by
            have : ((s.nextId : Nat) == i) = false := by
              simpa using fun e => hi e.symm
            simp [q0, this]
          rw [hfil, List.append_nil]
      · intro ev hev
        rw [List.mem_append] at hev
        rcases hev with hev | hev
        · have := traceDom ev hev
          omega
        · simp only [List.mem_singleton] at hev
          subst hev
          simp [q0]
      · rw [hdc, List.filter_append]
        have hfil : ([q0 s.nextId f n].filter (fun ev => terminalB ev.status)) = [] := by
          simp [q0, terminalB]
        rw [hfil, List.append_nil]
        exact termOrder
      · exact hif
      · rw [hdc, hq, hdn]
        have h1 : s.nextId + 1 - s.nextId = 1 := by omega
        rw [h1]
        rfl

lemma preinv_terminal (s : QState) (h : QInv s) (f : Ref) (nm : Option String)
    (jb : ConversionJob)
    (hif : s.inFlight = some (doneCount s))
    (hjob : s.jobs (doneCount s) = some jb)
    (hjb : jb = p50 (doneCount s) f nm)
    (t : ConversionJob) (hid : t.id = doneCount s) (hfile : t.file = f) (hname : t.fileName = nm)
    (hshape :
      (t.status = ConversionStatus.completed ∧ t.progress = 100 ∧
        t.result.isSome = true ∧ t.error = none) ∨
      (t.status = ConversionStatus.failed ∧ t.progress = 50 ∧
        t.result = none ∧ t.error.isSome = true)) :
    PreInv { s with
      jobs := mapSet s.jobs (doneCount s) t
      inFlight := none
      trace := s.trace ++ [t] } := by
  subst hjb
  obtain ⟨-, hdlt, -, hqueue⟩ := h.flightSome (doneCount s) hif
  have hterm : terminalB t.status = true := by
    rcases hshape with ⟨h1, -⟩ | ⟨h1, -⟩ <;> simp [terminalB, h1]
  have hdc : doneCount { s with
      jobs := mapSet s.jobs (doneCount s) t
      inFlight := none
      trace := s.trace ++ [t] } = doneCount s + 1 := by
    simp [doneCount, List.filter_append, hterm]
  refine ⟨?_, ?_, ?_, ?_, ?_, ?_, ?_, ?_, ?_, ?_⟩
  all_goals dsimp only
  · intro i
    by_cases hi : i = doneCount s
    · subst hi
      rw [mapSet_self]
      simp only [Option.isSome_some, true_iff]
      omega
    · rw [mapSet_ne _ _ _ _ hi]
      exact h.dom i
  · intro i j hj
    by_cases hi : i = doneCount s
    · subst hi
      rw [mapSet_self] at hj
      cases hj
      exact hid
    · rw [mapSet_ne _ _ _ _ hi] at hj
      exact h.ids i j hj
  · rw [hdc]
    omega
  · intro i j hj hlt
    rw [hdc] at hlt
    by_cases hi : i = doneCount s
    · subst hi
      rw [mapSet_self] at hj
      cases hj
      exact hshape
    · rw [mapSet_ne _ _ _ _ hi] at hj
      exact h.doneJobs i j hj (by omega)
  · intro i j hj hge
    rw [hdc] at hge
    have hi : i ≠ doneCount s := by omega
    rw [mapSet_ne _ _ _ _ hi] at hj
    refine h.queuedJobs i j hj ?_
    have hbit : flightBit s = 1 := by
      simp [flightBit, hif]
    omega
  · intro i j hj
    rw [List.filter_append]
    by_cases hi : i = doneCount s
    · subst hi
      rw [mapSet_self] at hj
      cases hj
      rw [h.traceShape _ _ hjob]
      have hsh : expectedTrace (p50 (doneCount s) f nm) =
          [q0 (doneCount s) f nm, p5 (doneCount s) f nm, p50 (doneCount s) f nm] := by
        simp [expectedTrace, q0, p5, p50]
      rw [hsh]
      rcases hshape with ⟨h1, -⟩ | ⟨h1, -⟩ <;>
        simp [expectedTrace, h1, hid, hfile, hname]
    · rw [mapSet_ne _ _ _ _ hi] at hj
      rw [h.traceShape _ _ hj]
      have hfil : ([t].filter (fun ev => ev.id == i)) = [] := by
        have : ((t.id : Nat) == i) = false := by
          rw [hid]
          simpa using fun e => hi e.symm
        simp [this]
      rw [hfil, List.append_nil]
  · intro ev hev
    rw [List.mem_append] at hev
    rcases hev with hev | hev
    · exact h.traceDom ev hev
    · simp only [List.mem_singleton] at hev
      subst hev
      rw [hid]
      omega
  · rw [hdc, List.filter_append]
    have hfil : ([t].filter (fun ev => terminalB ev.status)) = [t] := by
      simp [hterm]
    rw [hfil, List.map_append, h.termOrder, List.range_succ]
    simp [hid]
  · rw [hdc, hqueue]
    congr 1

lemma inv_resume (s : QState) (o : Outcome) (h : QInv s) : QInv (processNextResume s o) := by
  cases hif : s.inFlight with
  | none =>
      have hres : processNextResume s o = s := by
        simp [processNextResume, hif]
      rw [hres]
      exact h
  | some d =>
      obtain ⟨hd, hdlt, hjob, hqueue⟩ := h.flightSome d hif
      subst hd
      have hdom := (h.dom (doneCount s)).mpr hdlt
      obtain ⟨job, hjobeq⟩ := Option.isSome_iff_exists.mp hdom
      obtain ⟨hjs, hjp, hjr, hje⟩ := hjob job hjobeq
      have hjid : job.id = doneCount s := h.ids _ _ hjobeq
      have hjob_eq : job = p50 (doneCount s) job.file job.fileName := by
        cases job
        simp_all [p50]
      cases o with
      | ok r =>
          have hres : processNextResume s (Outcome.ok r) =
              processNext { s with
                jobs := mapSet s.jobs (doneCount s) { job with progress := 100, status := ConversionStatus.completed, result := some r }
                inFlight := none
                trace := s.trace ++ [{ job with progress := 100, status := ConversionStatus.completed, result := some r }] } := by
            rw [processNextResume]
            simp only [hif, hjobeq]
            rfl
          rw [hres]
          apply inv_processNext
          exact preinv_terminal s h job.file job.fileName job hif hjobeq hjob_eq
            { job with progress := 100, status := ConversionStatus.completed, result := some r }
            hjid rfl rfl (Or.inl ⟨rfl, rfl, rfl, hje⟩)
      | err m str =>
          have hres : processNextResume s (Outcome.err m str) =
              processNext { s with
                jobs := mapSet s.jobs (doneCount s) { job with status := ConversionStatus.failed, error := some (jsOrElse m str) }
                inFlight := none
                trace := s.trace ++ [{ job with status := ConversionStatus.failed, error := some (jsOrElse m str) }] } := by
            rw [processNextResume]
            simp only [hif, hjobeq]
            rfl
          rw [hres]
          apply inv_processNext
          exact preinv_terminal s h job.file job.fileName job hif hjobeq hjob_eq
            { job with status := ConversionStatus.failed, error := some (jsOrElse m str) }
            hjid rfl rfl (Or.inr ⟨rfl, hjp, hjr, rfl⟩)

lemma inv_applyAct (s : QState) (a : Act) (h : QInv s) : QInv (applyAct s a) := by
  cases a with
  | enq f n => exact inv_enqueue s f n h
  | fin o => exact inv_resume s o h

lemma inv_runFrom (s : QState) (acts : List Act) (h : QInv s) : QInv (runFrom s acts) := by
  induction acts generalizing s with
  | nil => exact h
  | cons a rest ih => exact ih (applyAct s a) (inv_applyAct s a h)

lemma inv_run (acts : List Act) : QInv (run acts) :=
  inv_runFrom initState acts inv_init

/-! ### Positional classification of jobs -/

lemma status_cases (s : QState) (h : QInv s) (i : Nat) (j : ConversionJob)
    (hj : s.jobs i = some j) :
    (i < doneCount s ∧
      ((j.status = ConversionStatus.completed ∧ j.progress = 100 ∧
        j.result.isSome = true ∧ j.error = none) ∨
       (j.status = ConversionStatus.failed ∧ j.progress = 50 ∧
        j.result = none ∧ j.error.isSome = true))) ∨
    (s.inFlight = some i ∧ i = doneCount s ∧ j.status = ConversionStatus.processing ∧
      j.progress = 50 ∧ j.result = none ∧ j.error = none) ∨
    (doneCount s + flightBit s ≤ i ∧ j.status = ConversionStatus.queued ∧ j.progress = 0 ∧
      j.result = none ∧ j.error = none) := by
  by_cases h1 : i < doneCount s
  · exact Or.inl ⟨h1, h.doneJobs i j hj h1⟩
  · by_cases h2 : doneCount s + flightBit s ≤ i
    · exact Or.inr (Or.inr ⟨h2, h.queuedJobs i j hj h2⟩)
    · have hbit1 : flightBit s = 1 := by
        have hle : flightBit s ≤ 1 := by
          unfold flightBit
          split <;> omega
        omega
      have hsome : s.inFlight.isSome = true := by
        unfold flightBit at hbit1
        by_cases hx : s.inFlight.isSome = true
        · exact hx
        · rw [if_neg hx] at hbit1
          cases hbit1
      obtain ⟨x, hx⟩ := Option.isSome_iff_exists.mp hsome
      obtain ⟨hxd, -, hjobx, -⟩ := h.flightSome x hx
      subst hxd
      have hieq : i = doneCount s := by omega
      subst hieq
      obtain ⟨hs1, hs2, hs3, hs4⟩ := hjobx j hj
      exact Or.inr (Or.inl ⟨hx, rfl, hs1, hs2, hs3, hs4⟩)

lemma processing_flight (s : QState) (h : QInv s) (i : Nat) (j : ConversionJob)
    (hj : s.jobs i = some j) (hp : j.status = ConversionStatus.processing) :
    s.inFlight = some i ∧ i = doneCount s ∧ j.progress = 50 := by
  rcases status_cases s h i j hj with ⟨-, ⟨hc, -⟩ | ⟨hc, -⟩⟩ | ⟨h1, h2, -, h4, -⟩ | ⟨-, hc, -⟩
  · rw [hp] at hc
    cases hc
  · rw [hp] at hc
    cases hc
  · exact ⟨h1, h2, h4⟩
  · rw [hp] at hc
    cases hc

lemma terminal_lt_done (s : QState) (h : QInv s) (i : Nat) (j : ConversionJob)
    (hj : s.jobs i = some j)
    (ht : j.status = ConversionStatus.completed ∨ j.status = ConversionStatus.failed) :
    i < doneCount s := by
  rcases status_cases s h i j hj with ⟨h1, -⟩ | ⟨-, -, hc, -⟩ | ⟨-, hc, -⟩
  · exact h1
  · rcases ht with ht | ht <;> rw [ht] at hc <;> cases hc
  · rcases ht with ht | ht <;> rw [ht] at hc <;> cases hc

/-! ### Claim C1 -/

/-- C1: single-flight.  In every reachable state, at most one job
record has status `processing` (any two processing jobs coincide), and
the `processing` boolean guard makes a re-entrant drain a no-op:
`processNext` returns the state unchanged whenever the guard is set. -/
theorem C1_single_flight (acts : List Act) :
    (∀ i1 i2 j1 j2, (run acts).jobs i1 = some j1 → (run acts).jobs i2 = some j2 →
      j1.status = ConversionStatus.processing → j2.status = ConversionStatus.processing →
      i1 = i2) ∧
    (∀ s : QState, s.processing = true → processNext s = s) := by
  constructor
  · intro i1 i2 j1 j2 h1 h2 hp1 hp2
    have e1 := (processing_flight (run acts) (inv_run acts) i1 j1 h1 hp1).2.1
    have e2 := (processing_flight (run acts) (inv_run acts) i2 j2 h2 hp2).2.1
    omega
  · intro s hp
    exact processNext_busy s hp

/-- Witness for C1 at a concrete reachable state: after one enqueue on
a fresh service the enqueued job is the unique processing one, and the
guarded re-entrant drain is a no-op. -/
theorem C1_single_flight_witness :
    processNext (run [Act.enq 0 none]) = run [Act.enq 0 none] ∧ (0 : Nat) = 0 := by
  constructor
  · exact (C1_single_flight [Act.enq 0 none]).2 (run [Act.enq 0 none]) (by decide)
  · exact (C1_single_flight [Act.enq 0 none]).1 0 0 (p50 0 0 none) (p50 0 0 none)
      (by decide) (by decide) rfl rfl

/-! ### Claim C2 -/

/-- C2: FIFO terminal order.  In every reachable state the ids of the
terminal broadcasts, in emission order, are exactly `0, 1, ...,
doneCount-1` — the order in which `enqueue` returned them, since
`enqueue` always returns the current id counter (last conjunct). -/
theorem C2_fifo_order (acts : List Act) :
    (((run acts).trace.filter (fun ev => terminalB ev.status)).map (fun ev => ev.id) =
      List.range (doneCount (run acts))) ∧
    doneCount (run acts) ≤ (run acts).nextId ∧
    (∀ s f n, (enqueue s f n).2 = s.nextId) := by
  exact ⟨(inv_run acts).termOrder, (inv_run acts).dLe, fun s f n => rfl⟩

/-! ### Claim C3 -/

/-- The status transitions a single step may perform on one job:
nothing, pick-up (`queued` to `processing`), or settling
(`processing` to a terminal state). -/
def statusStep (a b : ConversionStatus) : Prop :=
  a = b ∨
  (a = ConversionStatus.queued ∧ b = ConversionStatus.processing) ∨
  (a = ConversionStatus.processing ∧
    (b = ConversionStatus.completed ∨ b = ConversionStatus.failed))

lemma processNext_jobs_pres (s : QState) (i : Nat) (hne : s.queue.head? ≠ some i) :
    (processNext s).jobs i = s.jobs i := by
  unfold processNext
  split
  · rfl
  · split
    · rfl
    · rename_i nid rest heq
      rw [heq] at hne
      have hni : nid ≠ i := by
        intro e
        exact hne (by rw [e]; rfl)
      split
      · rfl
      · exact mapSet_ne _ _ _ _ (fun e => hni e.symm)

lemma processNext_jobs_head (s : QState) (nid : Nat) (rest : List Nat) (jq : ConversionJob)
    (hbusy : s.inFlight = none) (hq : s.queue = nid :: rest) (hjq : s.jobs nid = some jq) :
    (processNext s).jobs nid =
      some { jq with status := ConversionStatus.processing, progress := 50 } := by
  unfold processNext
  simp only [QState.processing, hbusy, Option.isSome_none, Bool.false_eq_true, if_false, hq, hjq]
  exact mapSet_self _ _ _

/-- The terminal record written by the resume continuation for a given
outcome. -/
def termJob (jb : ConversionJob) (o : Outcome) : ConversionJob :=
  match o with
  | .ok r => { jb with progress := 100, status := ConversionStatus.completed, result := some r }
  | .err m str =>
      { jb with status := ConversionStatus.failed, error := some (jsOrElse m str) }

lemma resume_eq_some (s : QState) (o : Outcome) (jb : ConversionJob)
    (hif : s.inFlight = some (doneCount s)) (hjb : s.jobs (doneCount s) = some jb) :
    processNextResume s o = processNext { s with
      jobs := mapSet s.jobs (doneCount s) (termJob jb o)
      inFlight := none
      trace := s.trace ++ [termJob jb o] } := by
  rw [processNextResume]
  simp only [hif, hjb]
  cases o <;> rfl

lemma applyAct_jobs (s : QState) (h : QInv s) (a : Act) (i : Nat) (j : ConversionJob)
    (hj : s.jobs i = some j) :
    (applyAct s a).jobs i = some j ∨
    (j.status = ConversionStatus.queued ∧ (applyAct s a).jobs i =
      some { j with status := ConversionStatus.processing, progress := 50 }) ∨
    (j.status = ConversionStatus.processing ∧ ∃ j2, (applyAct s a).jobs i = some j2 ∧
      j2.id = j.id ∧
      (j2.status = ConversionStatus.completed ∨ j2.status = ConversionStatus.failed)) := by
  have hidom : i < s.nextId := (h.dom i).mp (by rw [hj]; rfl)
  cases a with
  | enq f n =>
      dsimp only [applyAct]
      cases hif : s.inFlight with
      | some d =>
          left
          rw [enqueue_busy_eq s f n (by rw [hif]; rfl)]
          dsimp only
          rw [mapSet_ne _ _ _ _ (by omega)]
          exact hj
      | none =>
          left
          obtain ⟨hdn, hq⟩ := h.flightNone hif
          rw [enqueue_idle_eq s f n hif]
          rw [processNext_jobs_pres]
          · dsimp only
            rw [mapSet_ne _ _ _ _ (by omega)]
            exact hj
          · dsimp only
            rw [hq]
            simp only [List.nil_append, List.head?_cons, ne_eq, Option.some.injEq]
            omega
  | fin o =>
      dsimp only [applyAct]
      cases hif : s.inFlight with
      | none =>
          left
          rw [show processNextResume s o = s by simp [processNextResume, hif]]
          exact hj
      | some d =>
          obtain ⟨hd, hdlt, hjobprops, hqueue⟩ := h.flightSome d hif
          subst hd
          have hsomeD := (h.dom (doneCount s)).mpr hdlt
          obtain ⟨jb, hjb⟩ := Option.isSome_iff_exists.mp hsomeD
          rw [resume_eq_some s o jb hif hjb]
          by_cases hieq : i = doneCount s
          · subst hieq
            have hjeq : j = jb := by
              rw [hj] at hjb
              exact Option.some_inj.mp hjb
            subst hjeq
            right
            right
            obtain ⟨hps, -, -, -⟩ := hjobprops j hj
            refine ⟨hps, termJob j o, ?_, ?_, ?_⟩
            · rw [processNext_jobs_pres]
              · dsimp only
                exact mapSet_self _ _ _
              · dsimp only
                rw [hqueue]
                cases hm : s.nextId - doneCount s - 1 with
                | zero => simp [List.range']
                | succ k =>
                    rw [List.range'_succ]
                    simp only [List.head?_cons, ne_eq, Option.some.injEq]
                    omega
            · cases o <;> rfl
            · cases o
              · left
                rfl
              · right
                rfl
          · have hs2 : (mapSet s.jobs (doneCount s) (termJob jb o)) i = some j := by
              rw [mapSet_ne _ _ _ _ hieq]
              exact hj
            by_cases hhead : i = doneCount s + 1 ∧ doneCount s + 1 < s.nextId
            · obtain ⟨hi1, hi2⟩ := hhead
              right
              left
              have hqstat := h.queuedJobs i j hj (by
                simp only [flightBit, hif, Option.isSome_some, if_true]
                omega)
              refine ⟨hqstat.1, ?_⟩
              subst hi1
              have hq2 : ({ s with
                  jobs := mapSet s.jobs (doneCount s) (termJob jb o)
                  inFlight := none
                  trace := s.trace ++ [termJob jb o] } : QState).queue =
                  (doneCount s + 1) ::
                    List.range' (doneCount s + 2) (s.nextId - doneCount s - 2) := by
                dsimp only
                rw [hqueue]
                have hm : s.nextId - doneCount s - 1 = (s.nextId - doneCount s - 2) + 1 := by
                  omega
                rw [hm, List.range'_succ]
              have hjobs2 : ({ s with
                  jobs := mapSet s.jobs (doneCount s) (termJob jb o)
                  inFlight := none
                  trace := s.trace ++ [termJob jb o] } : QState).jobs (doneCount s + 1) =
                  some j := by
                dsimp only
                rw [mapSet_ne _ _ _ _ hieq]
                exact hj
              exact processNext_jobs_head _ _ _ j rfl hq2 hjobs2
            · left
              rw [processNext_jobs_pres]
              · exact hs2
              · dsimp only
                rw [hqueue]
                cases hm : s.nextId - doneCount s - 1 with
                | zero => simp [List.range']
                | succ k =>
                    rw [List.range'_succ]
                    simp only [List.head?_cons, ne_eq, Option.some.injEq]
                    intro e
                    exact hhead ⟨e.symm, by omega⟩

/-! ### Claim C3 -/

/-- C3: forward-only status evolution.  Any single interaction step on
any reachable state keeps every job present with an unchanged id, and
moves its status along the chain at most one stage: unchanged, `queued`
to `processing`, or `processing` to a terminal state — in particular a
terminal status never changes, a job never jumps from `queued` straight
to a terminal state, and no status ever regresses. -/
theorem C3_status_forward (acts : List Act) (a : Act) (i : Nat) (j : ConversionJob)
    (hj : (run acts).jobs i = some j) :
    ∃ j2, (applyAct (run acts) a).jobs i = some j2 ∧ j2.id = j.id ∧
      statusStep j.status j2.status := by
  rcases applyAct_jobs (run acts) (inv_run acts) a i j hj with h1 | ⟨hq, h2⟩ | ⟨hp, j2, h2, hid2, hterm⟩
  · exact ⟨j, h1, rfl, Or.inl rfl⟩
  · exact ⟨_, h2, rfl, Or.inr (Or.inl ⟨hq, rfl⟩)⟩
  · exact ⟨j2, h2, hid2, Or.inr (Or.inr ⟨hp, hterm⟩)⟩

/-- Witness for C3: the processor finishing the job enqueued on a fresh
service moves it from `processing` one stage forward. -/
theorem C3_status_forward_witness :
    ∃ j2, (applyAct (run [Act.enq 0 none]) (Act.fin (Outcome.ok 1))).jobs 0 = some j2 ∧
      j2.id = (p50 0 0 none).id ∧ statusStep (p50 0 0 none).status j2.status :=
  C3_status_forward [Act.enq 0 none] (Act.fin (Outcome.ok 1)) 0 (p50 0 0 none) (by decide)

/-! ### Claim C4 -/

/-- Number of jobs not yet settled: the pending queue plus the
in-flight call. -/
def pendingCount (s : QState) : Nat := s.queue.length + flightBit s

lemma pendingCount_eq (s : QState) (h : QInv s) :
    pendingCount s = s.nextId - doneCount s := by
  unfold pendingCount
  cases hif : s.inFlight with
  | none =>
      obtain ⟨hdn, hq⟩ := h.flightNone hif
      simp [hq, flightBit, hif, hdn]
  | some d =>
      obtain ⟨hd, hdlt, -, hqueue⟩ := h.flightSome d hif
      rw [hqueue]
      simp only [List.length_range', flightBit, hif, Option.isSome_some, if_true]
      omega

lemma processNext_nextId (s : QState) : (processNext s).nextId = s.nextId := by
  unfold processNext
  split
  · rfl
  · split
    · rfl
    · split <;> rfl

lemma processNext_doneCount (s : QState) : doneCount (processNext s) = doneCount s := by
  unfold processNext
  split
  · rfl
  · split
    · rfl
    · split
      · rfl
      · simp [doneCount, List.filter_append, terminalB, spreadCopy]

lemma resume_nextId (s : QState) (o : Outcome) :
    (processNextResume s o).nextId = s.nextId := by
  unfold processNextResume
  split
  · rfl
  · split
    · rw [processNext_nextId]
    · split <;> rw [processNext_nextId]

lemma resume_doneCount_busy (s : QState) (h : QInv s) (d : Nat) (o : Outcome)
    (hif : s.inFlight = some d) :
    doneCount (processNextResume s o) = doneCount s + 1 := by
  obtain ⟨hd, hdlt, -, -⟩ := h.flightSome d hif
  subst hd
  obtain ⟨jb, hjb⟩ := Option.isSome_iff_exists.mp ((h.dom (doneCount s)).mpr hdlt)
  rw [resume_eq_some s o jb hif hjb, processNext_doneCount]
  have hterm : terminalB (termJob jb o).status = true := by
    cases o <;> rfl
  simp [doneCount, List.filter_append, hterm]

lemma drain_all_terminal (os : List Outcome) : ∀ s : QState, QInv s →
    pendingCount s ≤ os.length →
    ∀ i j, (runFrom s (os.map Act.fin)).jobs i = some j →
      (j.status = ConversionStatus.completed ∨ j.status = ConversionStatus.failed) := by
  induction os with
  | nil =>
      intro s h hlen i j hj
      have hj2 : s.jobs i = some j := hj
      have hp0 : pendingCount s = 0 := by
        simpa using hlen
      rw [pendingCount_eq s h] at hp0
      have hlt : i < s.nextId := (h.dom i).mp (by rw [hj2]; rfl)
      have hdone : i < doneCount s := by
        have := h.dLe
        omega
      rcases h.doneJobs i j hj2 hdone with ⟨hc, -⟩ | ⟨hc, -⟩
      · exact Or.inl hc
      · exact Or.inr hc
  | cons o os ih =>
      intro s h hlen i j hj
      have hstep : runFrom s ((o :: os).map Act.fin) =
          runFrom (processNextResume s o) (os.map Act.fin) := rfl
      rw [hstep] at hj
      have h2 := inv_resume s o h
      refine ih (processNextResume s o) h2 ?_ i j hj
      rw [pendingCount_eq _ h2, resume_nextId]
      cases hif : s.inFlight with
      | none =>
          obtain ⟨hdn, -⟩ := h.flightNone hif
          have hres : processNextResume s o = s := by
            simp [processNextResume, hif]
          rw [hres]
          omega
      | some d =>
          rw [resume_doneCount_busy s h d o hif]
          rw [pendingCount_eq s h] at hlen
          simp only [List.length_cons] at hlen
          omega

lemma resume_err_jobs (s : QState) (h : QInv s) (d : Nat) (m : Option String) (str : String)
    (hif : s.inFlight = some d) :
    ∃ jb : ConversionJob, s.jobs d = some jb ∧
      (processNextResume s (Outcome.err m str)).jobs d =
        some { jb with status := ConversionStatus.failed, error := some (jsOrElse m str) } := by
  obtain ⟨hd, hdlt, -, hqueue⟩ := h.flightSome d hif
  subst hd
  obtain ⟨jb, hjb⟩ := Option.isSome_iff_exists.mp ((h.dom (doneCount s)).mpr hdlt)
  refine ⟨jb, hjb, ?_⟩
  rw [resume_eq_some s (Outcome.err m str) jb hif hjb]
  rw [processNext_jobs_pres]
  · dsimp only
    exact mapSet_self _ _ _
  · dsimp only
    rw [hqueue]
    cases hm : s.nextId - doneCount s - 1 with
    | zero => simp [List.range']
    | succ k =>
        rw [List.range'_succ]
        simp only [List.head?_cons, ne_eq, Option.some.injEq]
        omega

/-- C4: failure containment.  If the in-flight processor call of a
reachable state fails, the corresponding job ends `failed` with the
stringified error (`err?.message || String(err)`) stored as `error`;
the stored text is the collaborator's message whenever one is present
and non-empty, and the `String(err)` rendering otherwise; the step is a
total state transformation (no fault escapes the catch); and after
enough further processor completions every job of the service — in
particular every job enqueued after the failing one — is in a terminal
state. -/
theorem C4_failure_contained (acts : List Act) (i : Nat) (m : Option String) (str : String)
    (hif : (run acts).inFlight = some i) :
    (∃ jb : ConversionJob, (processNextResume (run acts) (Outcome.err m str)).jobs i =
        some { jb with status := ConversionStatus.failed, error := some (jsOrElse m str) }) ∧
    (∀ msg, m = some msg → msg ≠ "" → jsOrElse m str = msg) ∧
    (m = none → jsOrElse m str = str) ∧
    (∀ os : List Outcome,
      pendingCount (processNextResume (run acts) (Outcome.err m str)) ≤ os.length →
      ∀ k j2, (runFrom (processNextResume (run acts) (Outcome.err m str))
          (os.map Act.fin)).jobs k = some j2 →
        (j2.status = ConversionStatus.completed ∨ j2.status = ConversionStatus.failed)) := by
  refine ⟨?_, ?_, ?_, ?_⟩
  · obtain ⟨jb, -, hres⟩ := resume_err_jobs (run acts) (inv_run acts) i m str hif
    exact ⟨jb, hres⟩
  · intro msg hm hne
    subst hm
    simp [jsOrElse, hne]
  · intro hm
    subst hm
    rfl
  · intro os hlen
    exact drain_all_terminal os (processNextResume (run acts) (Outcome.err m str))
      (inv_resume (run acts) (Outcome.err m str) (inv_run acts)) hlen

/-- Witness for C4: the single job of a fresh service fails with
message "boom"; the message is stored verbatim and the queue is fully
drained. -/
theorem C4_failure_contained_witness :
    (∃ jb : ConversionJob, (processNextResume (run [Act.enq 0 none])
        (Outcome.err (some "boom") "E")).jobs 0 =
      some { jb with status := ConversionStatus.failed, error := some (jsOrElse (some "boom") "E") }) ∧
    jsOrElse (some "boom") "E" = "boom" := by
  obtain ⟨c1, c2, c3, c4⟩ :=
    C4_failure_contained [Act.enq 0 none] 0 (some "boom") "E" (by decide)
  exact ⟨c1, c2 "boom" rfl (by decide)⟩

/-! ### Claim C6 -/

/-- C6: per-job progress is monotone along the broadcast history, and a
terminal job has progress exactly 100 precisely when it completed
(a failed job keeps progress 50). -/
theorem C6_progress_monotone (acts : List Act) (i : Nat) :
    List.Chain' (fun a b => a ≤ b)
      (((run acts).trace.filter (fun ev => ev.id == i)).map (fun ev => ev.progress)) ∧
    (∀ j, (run acts).jobs i = some j →
      (j.status = ConversionStatus.completed ∨ j.status = ConversionStatus.failed) →
      (j.progress = 100 ↔ j.status = ConversionStatus.completed)) := by
  constructor
  · cases hjobs : (run acts).jobs i with
    | none =>
        have hge : (run acts).nextId ≤ i := by
          by_contra hlt
          have := ((inv_run acts).dom i).mpr (by omega)
          rw [hjobs] at this
          cases this
        rw [filter_id_nil_of_bound _ _ (inv_run acts).traceDom i hge]
        simp
    | some j =>
        rw [(inv_run acts).traceShape i j hjobs]
        rcases status_cases (run acts) (inv_run acts) i j hjobs with
          ⟨-, ⟨hs, hp, -⟩ | ⟨hs, hp, -⟩⟩ | ⟨-, -, hs, hp, -⟩ | ⟨-, hs, hp, -⟩ <;>
          simp [expectedTrace, hs, hp, q0, p5, p50]
  · intro j hj hterm
    have hlt := terminal_lt_done (run acts) (inv_run acts) i j hj hterm
    rcases (inv_run acts).doneJobs i j hj hlt with ⟨hc, hp, -⟩ | ⟨hc, hp, -⟩
    · simp [hc, hp]
    · simp [hc, hp]

/-- Witness for C6: the completed job of a fresh service has progress
100 and status completed, and the equivalence holds for it. -/
theorem C6_progress_monotone_witness :
    ((⟨0, ConversionStatus.completed, 100, 0, none, some 1, none⟩ :
        ConversionJob).progress = 100 ↔
      (⟨0, ConversionStatus.completed, 100, 0, none, some 1, none⟩ :
        ConversionJob).status = ConversionStatus.completed) :=
  (C6_progress_monotone [Act.enq 0 none, Act.fin (Outcome.ok 1)] 0).2
    ⟨0, ConversionStatus.completed, 100, 0, none, some 1, none⟩ (by decide) (Or.inl rfl)

/-! ### Claim C10 -/

/-- C10: exact broadcast sequence per job.  A subscriber observing all
broadcasts sees, for a job currently stored as `j`, exactly
`expectedTrace j`: the `queued` snapshot with progress 0; once picked
up, the `processing` snapshots with progress 5 and then 50 (the latter
emitted just before the processor is invoked, an extra broadcast that
is not a state transition); and one terminal snapshot, whose progress
is 100 when it completed and still 50 when it failed. -/
theorem C10_broadcast_sequence (acts : List Act) (i : Nat) (j : ConversionJob)
    (hj : (run acts).jobs i = some j) :
    (run acts).trace.filter (fun ev => ev.id == i) = expectedTrace j ∧
    (j.status = ConversionStatus.completed → j.progress = 100) ∧
    (j.status = ConversionStatus.failed → j.progress = 50) ∧
    (j.status = ConversionStatus.processing → j.progress = 50) ∧
    (j.status = ConversionStatus.queued → j.progress = 0) := by
  refine ⟨(inv_run acts).traceShape i j hj, ?_, ?_, ?_, ?_⟩ <;> intro hs <;>
    rcases status_cases (run acts) (inv_run acts) i j hj with
      ⟨-, ⟨hc, hp, -⟩ | ⟨hc, hp, -⟩⟩ | ⟨-, -, hc, hp, -⟩ | ⟨-, hc, hp, -⟩ <;>
    rw [hs] at hc <;> first
      | exact hp
      | cases hc

/-- Witness for C10: the full broadcast sequence of a job that failed
on a fresh service. -/
theorem C10_broadcast_sequence_witness :
    (run [Act.enq 7 (some "a"), Act.fin (Outcome.err none "x")]).trace.filter
        (fun ev => ev.id == 0) =
      expectedTrace ⟨0, ConversionStatus.failed, 50, 7, some "a", none, some "x"⟩ :=
  (C10_broadcast_sequence [Act.enq 7 (some "a"), Act.fin (Outcome.err none "x")] 0
    ⟨0, ConversionStatus.failed, 50, 7, some "a", none, some "x"⟩ (by decide)).1

/-! ### Claim C7 -/

/-- C7 counterexample: `getJob` returns the shallow spread
`{ ...job }`, so the snapshot's `file` field is the same reference as
the internal record's `file`.  Writing through the snapshot's reference
is therefore observed through the internal record's reference: the
claim that mutating the returned value's nested payload bytes never
affects internal state is false. -/
theorem C7_counterexample :
    ∃ snap jb : ConversionJob, getJob (run [Act.enq 5 none]) 0 = some snap ∧
      (run [Act.enq 5 none]).jobs 0 = some jb ∧
      snap.file = jb.file ∧
      heapWrite (fun _ => []) snap.file [9] jb.file = [9] := by
  refine ⟨p50 0 5 none, p50 0 5 none, by decide, by decide, rfl, by decide⟩

/-- C7 amended: `getJob` on an id never created returns absence (and
never throws — it is a total function into `Option`); on a stored job
it returns the shallow spread copy, whose top-level record is a fresh
value but whose nested `file` and `result` references are shared with
the internal record. -/
theorem C7_getJob_amended (acts : List Act) (i : Nat) :
    ((run acts).nextId ≤ i → getJob (run acts) i = none) ∧
    ((run acts).jobs i = none → getJob (run acts) i = none) ∧
    (∀ jb, (run acts).jobs i = some jb →
      getJob (run acts) i = some (spreadCopy jb) ∧ (spreadCopy jb).file = jb.file ∧
      (spreadCopy jb).result = jb.result) := by
  refine ⟨?_, ?_, ?_⟩
  · intro hge
    have hnone : (run acts).jobs i = none := by
      cases hx : (run acts).jobs i with
      | none => rfl
      | some jb =>
          have := ((inv_run acts).dom i).mp (by rw [hx]; rfl)
          omega
    simp [getJob, hnone]
  · intro hnone
    simp [getJob, hnone]
  · intro jb hjb
    exact ⟨by simp [getJob, hjb], rfl, rfl⟩

/-- Witness for C7 (amended): absence for a never-created id, and the
spread snapshot for the in-flight job of a fresh service. -/
theorem C7_getJob_amended_witness :
    getJob (run [Act.enq 5 none]) 3 = none ∧
    getJob (run [Act.enq 5 none]) 0 = some (spreadCopy (p50 0 5 none)) := by
  refine ⟨(C7_getJob_amended [Act.enq 5 none] 3).1 (by decide),
    ((C7_getJob_amended [Act.enq 5 none] 0).2.2 (p50 0 5 none) (by decide)).1⟩

/-! ### Claim C5: supporting lemmas -/

lemma processNext_trace (s : QState) : ∃ t, (processNext s).trace = s.trace ++ t := by
  unfold processNext
  split
  · exact ⟨[], (List.append_nil _).symm⟩
  · split
    · exact ⟨[], (List.append_nil _).symm⟩
    · split
      · exact ⟨[], (List.append_nil _).symm⟩
      · exact ⟨_, rfl⟩

lemma enqueue_trace (s : QState) (f : Ref) (n : Option String) :
    ∃ t, (enqueue s f n).1.trace = s.trace ++ t := by
  have he : (enqueue s f n).1 = processNext { s with
      jobs := mapSet s.jobs s.nextId (q0 s.nextId f n)
      queue := s.queue ++ [s.nextId]
      nextId := s.nextId + 1
      trace := s.trace ++ [q0 s.nextId f n] } := rfl
  obtain ⟨t, ht⟩ := processNext_trace { s with
    jobs := mapSet s.jobs s.nextId (q0 s.nextId f n)
    queue := s.queue ++ [s.nextId]
    nextId := s.nextId + 1
    trace := s.trace ++ [q0 s.nextId f n] }
  refine ⟨[q0 s.nextId f n] ++ t, ?_⟩
  rw [he, ht]
  dsimp only
  rw [List.append_assoc]

lemma resume_trace (s : QState) (o : Outcome) :
    ∃ t, (processNextResume s o).trace = s.trace ++ t := by
  cases hif : s.inFlight with
  | none => exact ⟨[], by simp [processNextResume, hif]⟩
  | some d =>
      cases hjd : s.jobs d with
      | none =>
          obtain ⟨t, ht⟩ := processNext_trace { s with inFlight := none }
          refine ⟨t, ?_⟩
          have he : processNextResume s o = processNext { s with inFlight := none } := by
            rw [processNextResume]
            simp only [hif, hjd]
          rw [he, ht]
      | some job =>
          cases o with
          | ok r =>
              have he : processNextResume s (Outcome.ok r) = processNext { s with
                  jobs := mapSet s.jobs d { job with progress := 100, status := ConversionStatus.completed, result := some r }
                  inFlight := none
                  trace := s.trace ++ [{ job with progress := 100, status := ConversionStatus.completed, result := some r }] } := by
                rw [processNextResume]
                simp only [hif, hjd]
                rfl
              obtain ⟨t, ht⟩ := processNext_trace { s with
                  jobs := mapSet s.jobs d { job with progress := 100, status := ConversionStatus.completed, result := some r }
                  inFlight := none
                  trace := s.trace ++ [{ job with progress := 100, status := ConversionStatus.completed, result := some r }] }
              refine ⟨[{ job with progress := 100, status := ConversionStatus.completed, result := some r }] ++ t, ?_⟩
              rw [he, ht]
              dsimp only
              rw [List.append_assoc]
          | err m str =>
              have he : processNextResume s (Outcome.err m str) = processNext { s with
                  jobs := mapSet s.jobs d { job with status := ConversionStatus.failed, error := some (jsOrElse m str) }
                  inFlight := none
                  trace := s.trace ++ [{ job with status := ConversionStatus.failed, error := some (jsOrElse m str) }] } := by
                rw [processNextResume]
                simp only [hif, hjd]
                rfl
              obtain ⟨t, ht⟩ := processNext_trace { s with
                  jobs := mapSet s.jobs d { job with status := ConversionStatus.failed, error := some (jsOrElse m str) }
                  inFlight := none
                  trace := s.trace ++ [{ job with status := ConversionStatus.failed, error := some (jsOrElse m str) }] }
              refine ⟨[{ job with status := ConversionStatus.failed, error := some (jsOrElse m str) }] ++ t, ?_⟩
              rw [he, ht]
              dsimp only
              rw [List.append_assoc]

lemma applyAct_trace (s : QState) (a : Act) : ∃ t, (applyAct s a).trace = s.trace ++ t := by
  cases a with
  | enq f n => exact enqueue_trace s f n
  | fin o => exact resume_trace s o

lemma runFrom_trace (s : QState) (acts : List Act) :
    ∃ t, (runFrom s acts).trace = s.trace ++ t := by
  induction acts generalizing s with
  | nil => exact ⟨[], (List.append_nil _).symm⟩
  | cons a rest ih =>
      obtain ⟨t1, ht1⟩ := applyAct_trace s a
      obtain ⟨t2, ht2⟩ := ih (applyAct s a)
      exact ⟨t1 ++ t2, by
        show (runFrom (applyAct s a) rest).trace = _
        rw [ht2, ht1, List.append_assoc]⟩

lemma run_append (A B : List Act) : run (A ++ B) = runFrom (run A) B := by
  simp [run, runFrom, List.foldl_append]

lemma run_snoc (A : List Act) (a : Act) : run (A ++ [a]) = applyAct (run A) a := by
  simp [run, runFrom, List.foldl_append]

lemma enqueue_nextId (s : QState) (f : Ref) (n : Option String) :
    (enqueue s f n).1.nextId = s.nextId + 1 := by
  show (processNext _).nextId = _
  rw [processNext_nextId]

lemma runFrom_nextId_le (s : QState) (acts : List Act) :
    s.nextId ≤ (runFrom s acts).nextId := by
  induction acts generalizing s with
  | nil => exact Nat.le_refl _
  | cons a rest ih =>
      refine Nat.le_trans ?_ (ih (applyAct s a))
      cases a with
      | enq f n =>
          show s.nextId ≤ (enqueue s f n).1.nextId
          rw [enqueue_nextId]
          omega
      | fin o =>
          show s.nextId ≤ (processNextResume s o).nextId
          rw [resume_nextId]

lemma enqueue_new_job (s : QState) (f : Ref) (n : Option String) (h : QInv s) :
    ∃ jm, (enqueue s f n).1.jobs s.nextId = some jm ∧
      (jm.status = ConversionStatus.queued ∨ jm.status = ConversionStatus.processing) := by
  cases hif : s.inFlight with
  | some d =>
      refine ⟨q0 s.nextId f n, ?_, Or.inl rfl⟩
      rw [enqueue_busy_eq s f n (by rw [hif]; rfl)]
      dsimp only
      exact mapSet_self _ _ _
  | none =>
      obtain ⟨hdn, hq⟩ := h.flightNone hif
      refine ⟨{ q0 s.nextId f n with status := ConversionStatus.processing, progress := 50 },
        ?_, Or.inr rfl⟩
      rw [enqueue_idle_eq s f n hif]
      refine processNext_jobs_head _ s.nextId [] (q0 s.nextId f n) hif ?_ ?_
      · dsimp only
        rw [hq]
        rfl
      · dsimp only
        exact mapSet_self _ _ _

/-! ### Claim C5: the one-shot waiter -/

lemma onUpdate_other (i : Nat) (w : WaiterState) (ev : ConversionJob) (h : ev.id ≠ i) :
    onUpdate i w ev = w := by
  unfold onUpdate
  cases hrm : w.removed
  · rw [if_neg Bool.false_ne_true, if_pos h]
  · rw [if_pos rfl]

lemma onUpdate_nonterm (i : Nat) (w : WaiterState) (ev : ConversionJob)
    (h : terminalB ev.status = false) : onUpdate i w ev = w := by
  unfold onUpdate
  cases hrm : w.removed
  · rw [if_neg Bool.false_ne_true]
    by_cases hid : ev.id ≠ i
    · rw [if_pos hid]
    · rw [if_neg hid]
      cases hev : ev.status with
      | queued => cases ev.result <;> rfl
      | processing => cases ev.result <;> rfl
      | completed => rw [hev] at h; simp [terminalB] at h
      | failed => rw [hev] at h; simp [terminalB] at h
  · rw [if_pos rfl]

lemma onUpdate_completed (i : Nat) (w : WaiterState) (ev : ConversionJob) (r : Ref)
    (hrm : w.removed = false) (hid : ev.id = i) (hst : ev.status = ConversionStatus.completed)
    (hres : ev.result = some r) :
    onUpdate i w ev = { removed := true, settled := some (Except.ok r) } := by
  unfold onUpdate
  rw [if_neg (by rw [hrm]; exact Bool.false_ne_true), if_neg (by rw [hid]; exact fun hc => hc rfl),
    hst, hres]

lemma onUpdate_failed (i : Nat) (w : WaiterState) (ev : ConversionJob)
    (hrm : w.removed = false) (hid : ev.id = i) (hst : ev.status = ConversionStatus.failed) :
    onUpdate i w ev =
      { removed := true,
        settled := some (Except.error (jsOrElse ev.error "Conversion failed")) } := by
  unfold onUpdate
  rw [if_neg (by rw [hrm]; exact Bool.false_ne_true), if_neg (by rw [hid]; exact fun hc => hc rfl),
    hst]

lemma waiterFold_nonsettle (i : Nat) (evs : List ConversionJob)
    (h : ∀ ev ∈ evs, ev.id ≠ i ∨ terminalB ev.status = false) (w : WaiterState) :
    evs.foldl (onUpdate i) w = w := by
  induction evs generalizing w with
  | nil => rfl
  | cons ev rest ih =>
      have hstep : onUpdate i w ev = w := by
        rcases h ev (List.mem_cons_self ev rest) with h1 | h1
        · exact onUpdate_other i w ev h1
        · exact onUpdate_nonterm i w ev h1
      show List.foldl (onUpdate i) (onUpdate i w ev) rest = w
      rw [hstep]
      exact ih (fun e he => h e (List.mem_cons_of_mem _ he)) w

lemma waiterFold_filter (i : Nat) (evs : List ConversionJob) (w : WaiterState) :
    evs.foldl (onUpdate i) w = (evs.filter (fun ev => ev.id == i)).foldl (onUpdate i) w := by
  induction evs generalizing w with
  | nil => rfl
  | cons ev rest ih =>
      rw [List.filter_cons]
      by_cases hm : (ev.id == i) = true
      · rw [if_pos hm]
        show List.foldl (onUpdate i) (onUpdate i w ev) rest = _
        rw [ih (onUpdate i w ev)]
        rfl
      · have hm2 : (ev.id == i) = false := by simpa using hm
        rw [if_neg (by simp [hm2])]
        show List.foldl (onUpdate i) (onUpdate i w ev) rest = _
        rw [onUpdate_other i w ev (by simpa using hm2)]
        exact ih w

/-- C5: `enqueueAndWait` as a one-shot waiter.  A call enqueues (the
action `Act.enq f n`, returning id `i = nextId`), then subscribes; the
events it can observe are exactly the broadcasts emitted after the
`enqueue` call returns (the trace suffix).  Folding the waiter over
that suffix: it resolves with `r` exactly when its job ended
`completed` with result `r`; it rejects with `msg` exactly when its job
ended `failed` and `msg` is the stored error (or the fallback
"Conversion failed" when no error text is available); the subscription
is removed exactly when its job reached a terminal state (which
broadcasts once, so removal happens exactly once, on the first terminal
transition of this id); and an event carrying any other job id never
changes the waiter's state. -/
theorem C5_enqueueAndWait (acts1 : List Act) (f : Ref) (n : Option String) (acts2 : List Act)
    (w : WaiterState)
    (hw : w = waiterRun (run acts1).nextId
      ((run (acts1 ++ Act.enq f n :: acts2)).trace.drop
        (run (acts1 ++ [Act.enq f n])).trace.length)) :
    (∀ r, w.settled = some (Except.ok r) ↔
      (∃ jb, (run (acts1 ++ Act.enq f n :: acts2)).jobs (run acts1).nextId = some jb ∧
        jb.status = ConversionStatus.completed ∧ jb.result = some r)) ∧
    (∀ msg, w.settled = some (Except.error msg) ↔
      (∃ jb, (run (acts1 ++ Act.enq f n :: acts2)).jobs (run acts1).nextId = some jb ∧
        jb.status = ConversionStatus.failed ∧ msg = jsOrElse jb.error "Conversion failed")) ∧
    (w.removed = true ↔
      (∃ jb, (run (acts1 ++ Act.enq f n :: acts2)).jobs (run acts1).nextId = some jb ∧
        (jb.status = ConversionStatus.completed ∨ jb.status = ConversionStatus.failed))) ∧
    (∀ w2 ev, ev.id ≠ (run acts1).nextId → onUpdate (run acts1).nextId w2 ev = w2) := by
  have hcons : acts1 ++ Act.enq f n :: acts2 = (acts1 ++ [Act.enq f n]) ++ acts2 := by
    simp
  have hfin_eq : run (acts1 ++ Act.enq f n :: acts2) =
      runFrom (run (acts1 ++ [Act.enq f n])) acts2 := by
    rw [hcons, run_append]
  obtain ⟨t, ht⟩ := runFrom_trace (run (acts1 ++ [Act.enq f n])) acts2
  have hsuffix : (run (acts1 ++ Act.enq f n :: acts2)).trace.drop
      (run (acts1 ++ [Act.enq f n])).trace.length = t := by
    rw [hfin_eq, ht, List.drop_left]
  rw [hsuffix] at hw
  obtain ⟨jm, hjm, hjmstat⟩ := enqueue_new_job (run acts1) f n (inv_run acts1)
  have hjm2 : (run (acts1 ++ [Act.enq f n])).jobs (run acts1).nextId = some jm := by
    rw [run_snoc]
    exact hjm
  have hinvM := inv_run (acts1 ++ [Act.enq f n])
  have hinvF := inv_run (acts1 ++ Act.enq f n :: acts2)
  have hibound : (run acts1).nextId < (run (acts1 ++ Act.enq f n :: acts2)).nextId := by
    have h1 : (run acts1).nextId < (run (acts1 ++ [Act.enq f n])).nextId :=
      (hinvM.dom _).mp (by rw [hjm2]; rfl)
    have h2 := runFrom_nextId_le (run (acts1 ++ [Act.enq f n])) acts2
    rw [hfin_eq]
    omega
  obtain ⟨jf, hjf⟩ := Option.isSome_iff_exists.mp ((hinvF.dom _).mpr hibound)
  have hjfid : jf.id = (run acts1).nextId := hinvF.ids _ jf hjf
  have hsplit : expectedTrace jf =
      expectedTrace jm ++ t.filter (fun ev => ev.id == (run acts1).nextId) := by
    rw [← hinvF.traceShape _ jf hjf, ← hinvM.traceShape _ jm hjm2, hfin_eq, ht,
      List.filter_append]
  have htf : t.filter (fun ev => ev.id == (run acts1).nextId) =
      (expectedTrace jf).drop (expectedTrace jm).length := by
    rw [hsplit, List.drop_left]
  have hwt : w = ((expectedTrace jf).drop (expectedTrace jm).length).foldl
      (onUpdate (run acts1).nextId) waiterInit := by
    rw [hw, ← htf]
    exact waiterFold_filter _ t waiterInit
  have hmlen : (expectedTrace jm).length = 1 ∨ (expectedTrace jm).length = 3 := by
    rcases hjmstat with hs | hs
    · left
      simp [expectedTrace, hs]
    · right
      simp [expectedTrace, hs]
  cases hjfst : jf.status with
  | queued =>
      have hexp : expectedTrace jf = [q0 jf.id jf.file jf.fileName] := by
        simp [expectedTrace, hjfst]
      have hwv : w = waiterInit := by
        rw [hwt, hexp]
        rcases hmlen with hl | hl <;> rw [hl] <;> rfl
      rw [hwv]
      refine ⟨?_, ?_, ?_, fun w2 ev h2 => onUpdate_other _ w2 ev h2⟩
      · intro r
        constructor
        · intro hcon
          simp [waiterInit] at hcon
        · rintro ⟨jb, hjb, hjbst, -⟩
          rw [hjf] at hjb
          obtain rfl := Option.some_inj.mp hjb
          rw [hjfst] at hjbst
          cases hjbst
      · intro msg
        constructor
        · intro hcon
          simp [waiterInit] at hcon
        · rintro ⟨jb, hjb, hjbst, -⟩
          rw [hjf] at hjb
          obtain rfl := Option.some_inj.mp hjb
          rw [hjfst] at hjbst
          cases hjbst
      · constructor
        · intro hcon
          simp [waiterInit] at hcon
        · rintro ⟨jb, hjb, hjbst⟩
          rw [hjf] at hjb
          obtain rfl := Option.some_inj.mp hjb
          rcases hjbst with hc | hc <;> rw [hjfst] at hc <;> cases hc
  | processing =>
      have hexp : expectedTrace jf =
          [q0 jf.id jf.file jf.fileName, p5 jf.id jf.file jf.fileName, jf] := by
        simp [expectedTrace, hjfst]
      have hwv : w = waiterInit := by
        rw [hwt, hexp]
        rcases hmlen with hl | hl <;> rw [hl]
        · refine waiterFold_nonsettle _ _ ?_ waiterInit
          intro ev hev
          simp only [List.drop_one, List.tail_cons, List.mem_cons, List.not_mem_nil,
            or_false] at hev
          rcases hev with rfl | rfl
          · exact Or.inr rfl
          · exact Or.inr (by rw [hjfst]; rfl)
        · rfl
      rw [hwv]
      refine ⟨?_, ?_, ?_, fun w2 ev h2 => onUpdate_other _ w2 ev h2⟩
      · intro r
        constructor
        · intro hcon
          simp [waiterInit] at hcon
        · rintro ⟨jb, hjb, hjbst, -⟩
          rw [hjf] at hjb
          obtain rfl := Option.some_inj.mp hjb
          rw [hjfst] at hjbst
          cases hjbst
      · intro msg
        constructor
        · intro hcon
          simp [waiterInit] at hcon
        · rintro ⟨jb, hjb, hjbst, -⟩
          rw [hjf] at hjb
          obtain rfl := Option.some_inj.mp hjb
          rw [hjfst] at hjbst
          cases hjbst
      · constructor
        · intro hcon
          simp [waiterInit] at hcon
        · rintro ⟨jb, hjb, hjbst⟩
          rw [hjf] at hjb
          obtain rfl := Option.some_inj.mp hjb
          rcases hjbst with hc | hc <;> rw [hjfst] at hc <;> cases hc
  | completed =>
      have hlt := terminal_lt_done _ hinvF _ jf hjf (Or.inl hjfst)
      have hdone := hinvF.doneJobs _ jf hjf hlt
      rcases hdone with ⟨-, -, hres, -⟩ | ⟨hcf, -⟩
      · obtain ⟨r0, hr0⟩ := Option.isSome_iff_exists.mp hres
        have hexp : expectedTrace jf = [q0 jf.id jf.file jf.fileName,
            p5 jf.id jf.file jf.fileName, p50 jf.id jf.file jf.fileName, jf] := by
          simp [expectedTrace, hjfst]
        have hwv : w = { removed := true, settled := some (Except.ok r0) } := by
          rw [hwt, hexp]
          rcases hmlen with hl | hl <;> rw [hl]
          · have hdr : List.drop 1 [q0 jf.id jf.file jf.fileName,
                p5 jf.id jf.file jf.fileName, p50 jf.id jf.file jf.fileName, jf] =
                [p5 jf.id jf.file jf.fileName, p50 jf.id jf.file jf.fileName] ++ [jf] := rfl
            rw [hdr, List.foldl_append]
            rw [waiterFold_nonsettle _ _ ?_ waiterInit]
            · exact onUpdate_completed _ waiterInit jf r0 rfl hjfid hjfst hr0
            · intro ev hev
              simp only [List.mem_cons, List.not_mem_nil, or_false] at hev
              rcases hev with rfl | rfl <;> exact Or.inr rfl
          · exact onUpdate_completed _ waiterInit jf r0 rfl hjfid hjfst hr0
        rw [hwv]
        refine ⟨?_, ?_, ?_, fun w2 ev h2 => onUpdate_other _ w2 ev h2⟩
        · intro r
          constructor
          · intro hcon
            have hrr : r0 = r := by simpa using hcon
            exact ⟨jf, hjf, hjfst, by rw [hr0, hrr]⟩
          · rintro ⟨jb, hjb, -, hjbres⟩
            rw [hjf] at hjb
            obtain rfl := Option.some_inj.mp hjb
            rw [hr0] at hjbres
            have hrr : r0 = r := Option.some_inj.mp hjbres
            simp [hrr]
        · intro msg
          constructor
          · intro hcon
            simp at hcon
          · rintro ⟨jb, hjb, hjbst, -⟩
            rw [hjf] at hjb
            obtain rfl := Option.some_inj.mp hjb
            rw [hjfst] at hjbst
            cases hjbst
        · exact ⟨fun _ => ⟨jf, hjf, Or.inl hjfst⟩, fun _ => rfl⟩
      · rw [hjfst] at hcf
        cases hcf
  | failed =>
      have hlt := terminal_lt_done _ hinvF _ jf hjf (Or.inr hjfst)
      have hexp : expectedTrace jf = [q0 jf.id jf.file jf.fileName,
          p5 jf.id jf.file jf.fileName, p50 jf.id jf.file jf.fileName, jf] := by
        simp [expectedTrace, hjfst]
      have hwv : w = { removed := true, settled := some (Except.error (jsOrElse jf.error "Conversion failed")) } := by
        rw [hwt, hexp]
        rcases hmlen with hl | hl <;> rw [hl]
        · have hdr : List.drop 1 [q0 jf.id jf.file jf.fileName,
              p5 jf.id jf.file jf.fileName, p50 jf.id jf.file jf.fileName, jf] =
              [p5 jf.id jf.file jf.fileName, p50 jf.id jf.file jf.fileName] ++ [jf] := rfl
          rw [hdr, List.foldl_append]
          rw [waiterFold_nonsettle _ _ ?_ waiterInit]
          · exact onUpdate_failed _ waiterInit jf rfl hjfid hjfst
          · intro ev hev
            simp only [List.mem_cons, List.not_mem_nil, or_false] at hev
            rcases hev with rfl | rfl <;> exact Or.inr rfl
        · exact onUpdate_failed _ waiterInit jf rfl hjfid hjfst
      rw [hwv]
      refine ⟨?_, ?_, ?_, fun w2 ev h2 => onUpdate_other _ w2 ev h2⟩
      · intro r
        constructor
        · intro hcon
          simp at hcon
        · rintro ⟨jb, hjb, hjbst, -⟩
          rw [hjf] at hjb
          obtain rfl := Option.some_inj.mp hjb
          rw [hjfst] at hjbst
          cases hjbst
      · intro msg
        constructor
        · intro hcon
          have hmm : jsOrElse jf.error "Conversion failed" = msg := by simpa using hcon
          exact ⟨jf, hjf, hjfst, hmm.symm⟩
        · rintro ⟨jb, hjb, -, hjbmsg⟩
          rw [hjf] at hjb
          obtain rfl := Option.some_inj.mp hjb
          simp [hjbmsg]
      · exact ⟨fun _ => ⟨jf, hjf, Or.inr hjfst⟩, fun _ => rfl⟩

/-- Witness for C5: on a fresh service, enqueue one payload and let the
processor succeed with result 9; the waiter resolves exactly with 9. -/
theorem C5_enqueueAndWait_witness :
    ∃ jb, (run [Act.enq 3 none, Act.fin (Outcome.ok 9)]).jobs 0 = some jb ∧
      jb.status = ConversionStatus.completed ∧ jb.result = some 9 := by
  have h := C5_enqueueAndWait [] 3 none [Act.fin (Outcome.ok 9)]
    (waiterRun (run ([] : List Act)).nextId
      ((run ([] ++ Act.enq 3 none :: [Act.fin (Outcome.ok 9)])).trace.drop
        (run ([] ++ [Act.enq 3 none])).trace.length)) rfl
  exact (h.1 9).mp rfl
